import Mathlib

set_option maxRecDepth 100000

/-!
# Verification of the NuttyB configuration-to-command compiler

Shallow embedding of the NuttyB lobby-command generation pipeline
(`src/lib/lua-utils.ts`, `src/lib/commands/slot-packer.ts`,
`src/lib/command-generator/command-generator.ts`,
`src/lib/command-generator/command-template.ts`) together with proofs of the
specification claims about it.

Strings are modelled as Lean `String`s; the JavaScript regular expressions
used by the code are embedded as explicit character-list scanners with the
same match/advance semantics.  JavaScript `number` sizes and priorities are
modelled as `Nat` (all values occurring in the code are non-negative
integers); the one fractional constant, `BASE64_OVERHEAD_MULTIPLIER = 1.4`,
is handled exactly by scaling size comparisons by 5 (`1.4·x > t  ↔  7·x > 5·t`).

Modules of the repository that are referenced but absent from the source
tree (the structured packer `packer.ts`, the slot-name formatter, the
Base64 codec, and the numeric values of `TARGET_SLOT_SIZE`/`MAX_SLOT_SIZE`)
are modelled from the specification; each such definition carries a doc
comment starting `Modelled from the spec:`.
-/

namespace NuttyB

/-! ## Character classes and basic string helpers (JS semantics) -/

/-- JS `\s` (whitespace) restricted to the ASCII range, which is the only
range occurring in this system's data. -/
def isWs (c : Char) : Bool :=
  c = ' ' || c = '\t' || c = '\n' || c = '\r' || c = '\x0b' || c = '\x0c'

/-- JS `\w`: ASCII letters, digits and underscore. -/
def isWordChar (c : Char) : Bool :=
  ('a' ≤ c && c ≤ 'z') || ('A' ≤ c && c ≤ 'Z') || ('0' ≤ c && c ≤ '9') || c = '_'

/-- JS `\d`: ASCII digits. -/
def isDigitChar (c : Char) : Bool :=
  '0' ≤ c && c ≤ '9'

/-- `String.prototype.trim()`: strip leading and trailing whitespace. -/
def jsTrim (s : String) : String :=
  String.mk ((s.data.dropWhile isWs).reverse.dropWhile isWs |>.reverse)

/-- `Buffer.byteLength(s, 'utf8')`: UTF-8 byte length of a string. -/
def utf8Len (s : String) : Nat :=
  s.data.foldl (fun n c => n + c.utf8Size) 0

/-- Helper for `splitLines`: split a character list at newline characters. -/
def splitLinesAux : List Char → List Char → List String
  | [], acc => [String.mk acc.reverse]
  | c :: rest, acc =>
    if c = '\n' then String.mk acc.reverse :: splitLinesAux rest []
    else splitLinesAux rest (c :: acc)

/-- `s.split('\n')`. -/
def splitLines (s : String) : List String :=
  splitLinesAux s.data []

/-- Join a list of strings with a separator (`Array.prototype.join`). -/
def joinSep (sep : String) : List String → String
  | [] => ""
  | [x] => x
  | x :: xs => x ++ sep ++ joinSep sep xs

/-! ## `src/lib/lua-utils.ts` -/

/-- Test of `/^\s*--+/`: after optional leading whitespace, at least two
dashes. -/
def isCommentLine (line : String) : Bool :=
  match line.data.dropWhile isWs with
  | '-' :: '-' :: _ => true
  | _ => false

/-- Test of `/^\s*$/`: the line is entirely whitespace. -/
def isBlankLine (line : String) : Bool :=
  line.data.all isWs

/-- `stripCommentPrefix(line)`: trims the line, then removes a leading run of
two-or-more dashes plus following whitespace (`replace(/^--+\s*/, '')`). -/
def stripCommentPrefix (line : String) : String :=
  let t := (jsTrim line).data
  match t with
  | '-' :: '-' :: _ => String.mk ((t.dropWhile (· = '-')).dropWhile isWs)
  | _ => String.mk t

/-- Loop body of `extractTopComments`: `out` is the accumulated text and
`found` records whether a comment line has been seen. -/
def extractTopCommentsLoop : List String → String → Bool → String
  | [], out, _ => out
  | line :: rest, out, found =>
    if isCommentLine line then
      extractTopCommentsLoop rest (out ++ line ++ "\n") true
    else if !isBlankLine line && found then
      out
    else
      extractTopCommentsLoop rest out found

/-- `extractTopComments(content)`: accumulate leading `--` comment lines
(with a trailing newline each), skipping blank lines, stopping at the first
code line that follows at least one comment line. -/
def extractTopComments (content : String) : String :=
  extractTopCommentsLoop (splitLines content) "" false

/-! ## Base64 codec

Modelled from the spec: the encoder module `src/lib/encoders/base64.ts` is
absent from the source tree.  §4.1 of the spec: `encode` is the standard
Base64 encoding of the UTF-8 bytes of the text, without line wrapping or
padding; the Base64URL variant substitutes the two non-URL-safe alphabet
characters, and `decode` fails for input containing characters outside the
applicable alphabet. -/

/-- UTF-8 bytes of one character (standard 1–4 byte encoding). -/
def utf8Bytes (c : Char) : List Nat :=
  let n := c.toNat
  if n < 0x80 then [n]
  else if n < 0x800 then [0xC0 + n / 64, 0x80 + n % 64]
  else if n < 0x10000 then
    [0xE0 + n / 4096, 0x80 + n / 64 % 64, 0x80 + n % 64]
  else
    [0xF0 + n / 262144, 0x80 + n / 4096 % 64, 0x80 + n / 64 % 64, 0x80 + n % 64]

/-- UTF-8 bytes of a string. -/
def strUtf8 (s : String) : List Nat :=
  s.data.foldr (fun c acc => utf8Bytes c ++ acc) []

/-- The standard Base64 alphabet. -/
def b64Alphabet : List Char :=
  "ABCDEFGHIJKLMNOPQRSTUVWXYZabcdefghijklmnopqrstuvwxyz0123456789+/".data

/-- Character for a 6-bit value in the standard alphabet. -/
def b64Char (n : Nat) : Char :=
  b64Alphabet.getD n 'A'

/-- Standard Base64 encoding of a byte list (three bytes to four sextets). -/
def b64EncodeBytes : List Nat → List Char
  | [] => []
  | [a] => [b64Char (a / 4), b64Char (a % 4 * 16)]
  | [a, b] => [b64Char (a / 4), b64Char (a % 4 * 16 + b / 16), b64Char (b % 16 * 4)]
  | a :: b :: c :: rest =>
    b64Char (a / 4) :: b64Char (a % 4 * 16 + b / 16) ::
      b64Char (b % 16 * 4 + c / 64) :: b64Char (c % 64) :: b64EncodeBytes rest

/-- Modelled from the spec: `encode(text)` from the absent
`src/lib/encoders/base64.ts` — standard Base64 of the UTF-8 bytes. -/
def encode (s : String) : String :=
  String.mk (b64EncodeBytes (strUtf8 s))

/-- Value of a Base64URL alphabet character; `none` for a character outside
the alphabet. -/
def b64UrlVal (c : Char) : Option Nat :=
  if 'A' ≤ c && c ≤ 'Z' then some (c.toNat - 65)
  else if 'a' ≤ c && c ≤ 'z' then some (c.toNat - 97 + 26)
  else if '0' ≤ c && c ≤ '9' then some (c.toNat - 48 + 52)
  else if c = '-' then some 62
  else if c = '_' then some 63
  else none

/-- Reassemble bytes from 6-bit values (leftover bits below one byte are
discarded, as in standard unpadded Base64 decoding). -/
def sextetsToBytes : List Nat → Nat → Nat → List Nat
  | [], _, _ => []
  | v :: rest, acc, bits =>
    let acc' := acc * 64 + v
    let bits' := bits + 6
    if 8 ≤ bits' then
      acc' / 2 ^ (bits' - 8) % 256 :: sextetsToBytes rest (acc' % 2 ^ (bits' - 8)) (bits' - 8)
    else
      sextetsToBytes rest acc' bits'

/-- Whether a byte is a UTF-8 continuation byte. -/
def isCont (b : Nat) : Bool :=
  0x80 ≤ b && b ≤ 0xBF

/-- Decode a UTF-8 byte list into characters; `none` on a malformed
sequence. -/
def utf8Decode : List Nat → Option (List Char)
  | [] => some []
  | b :: rest =>
    if b < 0x80 then
      (utf8Decode rest).map (Char.ofNat b :: ·)
    else if 0xC2 ≤ b && b ≤ 0xDF then
      match rest with
      | b2 :: rest' =>
        if isCont b2 then
          (utf8Decode rest').map (Char.ofNat ((b - 0xC0) * 64 + (b2 - 0x80)) :: ·)
        else none
      | _ => none
    else if 0xE0 ≤ b && b ≤ 0xEF then
      match rest with
      | b2 :: b3 :: rest' =>
        let n := (b - 0xE0) * 4096 + (b2 - 0x80) * 64 + (b3 - 0x80)
        if isCont b2 && isCont b3 && 0x800 ≤ n && (n < 0xD800 || 0xDFFF < n) then
          (utf8Decode rest').map (Char.ofNat n :: ·)
        else none
      | _ => none
    else if 0xF0 ≤ b && b ≤ 0xF4 then
      match rest with
      | b2 :: b3 :: b4 :: rest' =>
        let n := (b - 0xF0) * 262144 + (b2 - 0x80) * 4096 + (b3 - 0x80) * 64 + (b4 - 0x80)
        if isCont b2 && isCont b3 && isCont b4 && 0x10000 ≤ n && n ≤ 0x10FFFF then
          (utf8Decode rest').map (Char.ofNat n :: ·)
        else none
      | _ => none
    else none

/-- Modelled from the spec: `decode(code)` of the absent Base64URL decoder —
fails (`none`) for characters outside `[A-Za-z0-9_-]` or for bytes that are
not valid UTF-8. -/
def decodeB64Url (s : String) : Option String := do
  let vals ← s.data.mapM b64UrlVal
  let cs ← utf8Decode (sextetsToBytes vals 0 0)
  pure (String.mk cs)

/-! ## Tweak types and slot names -/

/-- The two Lua tweak types. -/
inductive LuaTweakType where
  | tweakdefs
  | tweakunits
deriving DecidableEq, Repr

/-- Type of a generated command. -/
inductive TweakType where
  | tweakdefs
  | tweakunits
  | command
deriving DecidableEq, Repr

/-- The command type corresponding to a Lua tweak type. -/
def LuaTweakType.toTweakType : LuaTweakType → TweakType
  | .tweakdefs => .tweakdefs
  | .tweakunits => .tweakunits

/-- Name of a Lua tweak type as it appears in commands. -/
def LuaTweakType.name : LuaTweakType → String
  | .tweakdefs => "tweakdefs"
  | .tweakunits => "tweakunits"

/-- Modelled from the spec: `formatSlotName(type, index)` from the absent
slot module — the bare type name for index 0 and the type name suffixed with
the decimal index otherwise (§4.2). -/
def formatSlotName (ty : LuaTweakType) (index : Nat) : String :=
  if index = 0 then ty.name else ty.name ++ toString index

/-! ## Constants (`src/lib/*/constants`, `configuration-mapping`)

`MAX_COMMAND_LENGTH` and `MAX_SLOTS_PER_TYPE` are present in the source
(`configuration-mapping.ts`); the numeric values of `TARGET_SLOT_SIZE` and
`MAX_SLOT_SIZE`/`MAX_CHUNK_SIZE` live in modules absent from the tree, so
functions below take them as explicit parameters. -/

/-- `MAX_COMMAND_LENGTH = 51_000`. -/
def MAX_COMMAND_LENGTH : Nat := 51000

/-- `MAX_SLOTS_PER_TYPE = 10`. -/
def MAX_SLOTS_PER_TYPE : Nat := 10

/-! ## `src/lib/commands/slot-packer.ts` -/

/-- A Lua source with its path and priority for packing
(`LuaSourceWithMetadata` / `LuaSource`). -/
structure LuaSource where
  path : String
  content : String
  priority : Nat
deriving DecidableEq, Repr

/-- `wrapInIIFE(content, path)`. -/
def wrapInIIFE (content path : String) : String :=
  "-- Source: " ++ path ++ "\n(function()\n" ++ content ++ "\nend)()"

/-- One step of `groupByPriority`: append a source to its priority's group,
creating the group at the end on first occurrence (JS `Map` preserves
insertion order of keys). -/
def addToGroup : List (Nat × List LuaSource) → LuaSource → List (Nat × List LuaSource)
  | [], s => [(s.priority, [s])]
  | (p, g) :: rest, s =>
    if p = s.priority then (p, g ++ [s]) :: rest else (p, g) :: addToGroup rest s

/-- `groupByPriority(sources)`. -/
def groupByPriority (sources : List LuaSource) : List (Nat × List LuaSource) :=
  sources.foldl addToGroup []

/-- Stable insertion used by `stableSortBy`: `x` is placed after every `y`
with `le y x`. -/
def insertBy (le : α → α → Bool) (x : α) : List α → List α
  | [] => [x]
  | y :: ys => if le y x then y :: insertBy le x ys else x :: y :: ys

/-- Stable sort by a comparator (`le a b` meaning "a may stay before b"),
modelling JS `Array.prototype.toSorted`, which is stable. -/
def stableSortBy (le : α → α → Bool) (l : List α) : List α :=
  l.foldl (fun acc x => insertBy le x acc) []

/-- `buildMergedHeader(sources)`: first comment line of each contributing
source, stripped, the non-empty ones joined by commas. -/
def buildMergedHeader (sources : List LuaSource) : Option String :=
  let descriptions :=
    (sources.map fun s =>
      stripCommentPrefix ((splitLines (extractTopComments s.content)).headD "")).filter
      (· ≠ "")
  if descriptions.isEmpty then none
  else some ("-- " ++ joinSep ", " descriptions ++ "\n\n")

/-- Finalize a slot: prefix the merged header when one exists, and join the
wrapped bodies with blank lines. -/
def finalizeSlot (currentSources : List LuaSource) (currentSlot : List String) : String :=
  match buildMergedHeader currentSources with
  | some h => h ++ joinSep "\n\n" currentSlot
  | none => joinSep "\n\n" currentSlot

/-- Loop of `packPriorityGroup`: greedy accumulation against the target.
Sizes are scaled by 5 so that the `1.4×` Base64 estimate is exact:
`currentSize` holds `7 × (wrapped byte length)` summed, compared against
`5 × TARGET_SLOT_SIZE`. -/
def packPriorityGroupLoop (target : Nat) :
    List LuaSource → List String → List LuaSource → Nat → List String
  | [], currentSlot, currentSources, _ =>
    if currentSlot.isEmpty then [] else [finalizeSlot currentSources currentSlot]
  | s :: rest, currentSlot, currentSources, currentSize =>
    let wrapped := wrapInIIFE s.content s.path
    let est := 7 * utf8Len wrapped
    if !currentSlot.isEmpty && 5 * target < currentSize + est then
      finalizeSlot currentSources currentSlot ::
        packPriorityGroupLoop target rest [wrapped] [s] est
    else
      packPriorityGroupLoop target rest (currentSlot ++ [wrapped])
        (currentSources ++ [s]) (currentSize + est)

/-- `packPriorityGroup(sources)` with the (absent) `TARGET_SLOT_SIZE`
constant passed explicitly. -/
def packPriorityGroup (target : Nat) (sources : List LuaSource) : List String :=
  packPriorityGroupLoop target sources [] [] 0

/-- Result of packing Lua sources into slots (`SlotPackingResult`). -/
structure SlotPackingResult where
  commands : List String
  used : Nat
  total : Nat
deriving DecidableEq, Repr

/-- The `!bset` command string for one slot. -/
def slotCommand (ty : LuaTweakType) (index : Nat) (content : String) : String :=
  "!bset " ++ formatSlotName ty index ++ " " ++ encode content

/-- Command-generation loop of `packLuaSourcesIntoSlots`: encode each slot
once, validate the command length. -/
def buildCommandsLoop (ty : LuaTweakType) : Nat → List String → Except String (List String)
  | _, [] => .ok []
  | i, content :: rest =>
    let command := slotCommand ty i content
    if MAX_COMMAND_LENGTH < command.length then
      .error (ty.name ++ " slot " ++ toString i ++ " exceeds 51000 char limit (" ++
        toString command.length ++ " chars). Please disable some settings to reduce slot usage.")
    else
      (buildCommandsLoop ty (i + 1) rest).map (command :: ·)

/-- All slot contents of `packLuaSourcesIntoSlots`: groups packed in
ascending priority order. -/
def allSlotContents (target : Nat) (sources : List LuaSource) : List String :=
  let priorityGroups := groupByPriority sources
  let priorities := stableSortBy (· ≤ ·) (priorityGroups.map Prod.fst)
  priorities.foldr
    (fun p acc =>
      packPriorityGroup target ((priorityGroups.find? (·.1 = p)).elim [] Prod.snd) ++ acc)
    []

/-- `packLuaSourcesIntoSlots(sources, slotType)` with the (absent)
`TARGET_SLOT_SIZE` passed explicitly. -/
def packLuaSourcesIntoSlots (target : Nat) (sources : List LuaSource)
    (slotType : LuaTweakType) : Except String SlotPackingResult :=
  if sources.isEmpty then
    .ok { commands := [], used := 0, total := MAX_SLOTS_PER_TYPE }
  else
    let contents := allSlotContents target sources
    if MAX_SLOTS_PER_TYPE < contents.length then
      .error ("Too many " ++ slotType.name ++ " slots needed (" ++
        toString contents.length ++
        "). Maximum is 10 slots. Please disable some settings to reduce slot usage.")
    else
      (buildCommandsLoop slotType 0 contents).map
        fun commands => { commands := commands, used := commands.length, total := MAX_SLOTS_PER_TYPE }

/-! ## The structured packer `src/lib/command-generator/packer.ts`

Modelled from the spec: the packer module used by `generateCommands` is
absent from the source tree (only its caller and its tests are present).
§4.7 of the spec: sources arrive sorted ascending by priority and are packed
greedily in that order against `TARGET_SLOT_SIZE` using the `1.4×` Base64
estimate; a `tweakunits` source whose content is a bare table literal
(classified per §4.3) receives an exclusive slot; per the repository's tests
(`Tweakunits plain table isolation`), slots are not split at priority-group
boundaries — executable sources of different priorities may share a slot.
Each slot's command is checked against the hard per-command ceiling
(`MAX_SLOT_SIZE`, passed explicitly since its value is absent), and the slot
count against `MAX_SLOTS_PER_TYPE`. -/

/-- First line of the content that is neither blank nor a comment. -/
def firstCodeLine (content : String) : Option String :=
  (splitLines content).find? fun l => !isBlankLine l && !isCommentLine l

/-- Modelled from the spec: §4.3's format classification — the first
non-comment, non-blank content is a bare table literal, optionally prefixed
by `return`. -/
def isPlainTable (content : String) : Bool :=
  match firstCodeLine content with
  | some l =>
    "\x7b".data.isPrefixOf (jsTrim l).data || "return".data.isPrefixOf (jsTrim l).data
  | none => false

/-- Wrapped body of one source inside a slot: every source carries its
`-- Source:` trace comment; executable sources additionally get the
isolating function block, while a plain-table `tweakunits` source keeps its
bare-table shape. -/
def wrapSource (ty : LuaTweakType) (s : LuaSource) : String :=
  if ty = .tweakunits && isPlainTable s.content then
    "-- Source: " ++ s.path ++ "\n" ++ s.content
  else
    wrapInIIFE s.content s.path

/-- Greedy slot partition of the (pre-sorted) source list: plain-table
`tweakunits` sources are emitted as singleton slots; other sources
accumulate until the scaled size estimate would exceed the target. -/
def packSlotsLoop (ty : LuaTweakType) (target : Nat) :
    List LuaSource → List LuaSource → Nat → List (List LuaSource)
  | [], current, _ => if current.isEmpty then [] else [current]
  | s :: rest, current, size =>
    if ty = .tweakunits && isPlainTable s.content then
      if current.isEmpty then [s] :: packSlotsLoop ty target rest [] 0
      else current :: [s] :: packSlotsLoop ty target rest [] 0
    else
      let est := 7 * utf8Len (wrapSource ty s)
      if !current.isEmpty && 5 * target < size + est then
        current :: packSlotsLoop ty target rest [s] est
      else
        packSlotsLoop ty target rest (current ++ [s]) (size + est)

/-- Slot partition entry point. -/
def packSlots (ty : LuaTweakType) (target : Nat) (sources : List LuaSource) :
    List (List LuaSource) :=
  packSlotsLoop ty target sources [] 0

/-- Merged-header-plus-bodies text of one slot. -/
def slotContentOf (ty : LuaTweakType) (group : List LuaSource) : String :=
  finalizeSlot group (group.map (wrapSource ty))

/-- Slot metadata of a slot-typed command (`SlotInfo`). -/
structure SlotInfo where
  index : Nat
  sources : List String
  content : String
deriving DecidableEq, Repr

/-- A single generated command (`Command`): `slot` is present exactly for
the slot-typed commands. -/
structure Command where
  type : TweakType
  command : String
  slot : Option SlotInfo
deriving DecidableEq, Repr

/-- Result of the structured packer. -/
structure PackResult where
  commands : List Command
  used : Nat
  total : Nat
deriving Repr

/-- Command-building loop of the structured packer: encode each slot once,
validate against the hard per-command ceiling. -/
def buildPackCommands (ty : LuaTweakType) (maxSlot : Nat) :
    Nat → List (List LuaSource) → Except String (List Command)
  | _, [] => .ok []
  | i, group :: rest =>
    let content := slotContentOf ty group
    let command := slotCommand ty i content
    if maxSlot < command.length then
      .error (ty.name ++ " slot " ++ toString i ++ " exceeds limit")
    else
      (buildPackCommands ty maxSlot (i + 1) rest).map
        (⟨ty.toTweakType, command,
          some ⟨i, group.map (·.path), content⟩⟩ :: ·)

/-- Modelled from the spec: `packLuaSources(sources, slotType)` of the
absent packer module, with `TARGET_SLOT_SIZE` and `MAX_SLOT_SIZE` passed
explicitly. -/
def packLuaSources (target maxSlot : Nat) (sources : List LuaSource)
    (slotType : LuaTweakType) : Except String PackResult :=
  if sources.isEmpty then
    .ok { commands := [], used := 0, total := MAX_SLOTS_PER_TYPE }
  else
    let groups := packSlots slotType target sources
    if MAX_SLOTS_PER_TYPE < groups.length then
      .error ("Too many " ++ slotType.name ++ " slots needed (" ++
        toString groups.length ++ "). Maximum is 10 slots.")
    else
      (buildPackCommands slotType maxSlot 0 groups).map
        fun commands => { commands := commands, used := commands.length, total := MAX_SLOTS_PER_TYPE }

/-! ## `src/lib/command-generator/command-template.ts`

The template context (a JS string-keyed object) is modelled as an
association list; lookup yields `none` for an absent key. -/

/-- A template context: variable name to value. -/
def TemplateContext := List (String × String)

/-- `context[varName]` — `none` models JS `undefined`. -/
def ctxGet (ctx : TemplateContext) (name : String) : Option String :=
  (List.find? (·.1 = name) ctx).map (·.2)

/-- First match of `/\$(\w+)\$/` in a character list: returns the text
before the match, the variable name, and the text after the closing `$`.
The scanner advances one character at a time on failure, exactly as the JS
regex engine does; a match requires a `$`, a non-empty run of word
characters, and a closing `$`. -/
def findVarMatch : List Char → Option (List Char × List Char × List Char)
  | [] => none
  | c :: rest =>
    if c = '$' && !(rest.takeWhile isWordChar).isEmpty &&
        (rest.dropWhile isWordChar).head? = some '$' then
      some ([], rest.takeWhile isWordChar, (rest.dropWhile isWordChar).tail)
    else
      (findVarMatch rest).map fun (b, n, a) => (c :: b, n, a)

/-- A successful `findVarMatch` decomposes its input as
`before ++ '$' :: name ++ '$' :: after`. -/
theorem findVarMatch_decomp :
    ∀ cs b n a, findVarMatch cs = some (b, n, a) →
      cs = b ++ '$' :: (n ++ '$' :: a) := by
  intro cs
  induction cs with
  | nil => intro b n a h; simp [findVarMatch] at h
  | cons c rest ih =>
    intro b n a h
    rw [findVarMatch] at h
    split at h
    · next hcond =>
      simp only [Bool.and_eq_true, Bool.not_eq_true', List.isEmpty_eq_false,
        decide_eq_true_eq] at hcond
      obtain ⟨⟨hc, _⟩, hh⟩ := hcond
      obtain ⟨rfl, rfl, rfl⟩ : b = [] ∧ n = rest.takeWhile isWordChar ∧
          a = (rest.dropWhile isWordChar).tail := by
        cases h; exact ⟨rfl, rfl, rfl⟩
      have hc' : c = '$' := by simpa using hc
      subst hc'
      have hrest : rest.takeWhile isWordChar ++ rest.dropWhile isWordChar = rest :=
        List.takeWhile_append_dropWhile _ _
      rcases hd : rest.dropWhile isWordChar with _ | ⟨d, ds⟩
      · rw [hd] at hh; simp at hh
      · rw [hd] at hh
        simp only [List.head?_cons, Option.some_inj] at hh
        subst hh
        simp only [hd, List.tail_cons, List.nil_append, List.cons_inj_right]
        rw [← hd]
        exact hrest.symm
    · simp only [Option.map_eq_some'] at h
      obtain ⟨⟨b', n', a'⟩, hm, he⟩ := h
      obtain ⟨rfl, rfl, rfl⟩ : b = c :: b' ∧ n = n' ∧ a = a' := by
        cases he; exact ⟨rfl, rfl, rfl⟩
      rw [ih _ _ _ hm]
      simp

/-- The suffix returned by `findVarMatch` is shorter than the input. -/
theorem findVarMatch_length_lt {cs b n a : List Char}
    (h : findVarMatch cs = some (b, n, a)) : a.length < cs.length := by
  have := findVarMatch_decomp cs b n a h
  subst this
  simp only [List.length_append, List.length_cons]
  omega

/-- Fuel-based loop of `collectVars` (the fuel is only a termination
measure; it always suffices because each match strictly shrinks the text). -/
def collectVarsGo : Nat → List Char → List String
  | 0, _ => []
  | fuel + 1, cs =>
    match findVarMatch cs with
    | none => []
    | some (_, n, a) => String.mk n :: collectVarsGo fuel a

/-- All variable names found by `/\$(\w+)\$/g` (`matchAll`), in scan
order. -/
def collectVars (cs : List Char) : List String :=
  collectVarsGo cs.length cs

/-- Fuel irrelevance for `collectVarsGo`. -/
theorem collectVarsGo_congr :
    ∀ f₁ f₂ cs, cs.length ≤ f₁ → cs.length ≤ f₂ →
      collectVarsGo f₁ cs = collectVarsGo f₂ cs := by
  intro f₁
  induction f₁ with
  | zero =>
    intro f₂ cs h₁ h₂
    have : cs = [] := List.length_eq_zero.mp (Nat.le_zero.mp h₁)
    subst this
    cases f₂ <;> simp [collectVarsGo, findVarMatch]
  | succ f ih =>
    intro f₂ cs h₁ h₂
    cases f₂ with
    | zero =>
      have : cs = [] := List.length_eq_zero.mp (Nat.le_zero.mp h₂)
      subst this
      simp [collectVarsGo, findVarMatch]
    | succ f₂' =>
      simp only [collectVarsGo]
      rcases hm : findVarMatch cs with _ | ⟨b, n, a⟩
      · rfl
      · have ha := findVarMatch_length_lt hm
        dsimp only
        rw [ih f₂' a (by omega) (by omega)]

/-- Unfolding equation for `collectVars`. -/
theorem collectVars_eq (cs : List Char) :
    collectVars cs =
      match findVarMatch cs with
      | none => []
      | some (_, n, a) => String.mk n :: collectVars a := by
  rcases hm : findVarMatch cs with _ | ⟨b, n, a⟩
  · rcases cs with _ | ⟨c, cs'⟩
    · rfl
    · simp only [collectVars, List.length_cons, collectVarsGo, hm]
  · have ha := findVarMatch_length_lt hm
    rcases hl : cs.length with _ | k
    · omega
    · simp only [collectVars, hl, collectVarsGo, hm]
      exact congrArg _ (collectVarsGo_congr k a.length a (by omega) le_rfl)

/-- Fuel-based loop of `replaceVarsD`. -/
def replaceVarsDGo (ctx : TemplateContext) : Nat → List Char → List Char
  | 0, cs => cs
  | fuel + 1, cs =>
    match findVarMatch cs with
    | none => cs
    | some (b, n, a) =>
      b ++ ((ctxGet ctx (String.mk n)).getD "").data ++ replaceVarsDGo ctx fuel a

/-- `replaceAll(VARIABLE_REPLACE_PATTERN, (m, v) => context[v] ?? '')`:
non-throwing variable substitution (used inside kept optional sections). -/
def replaceVarsD (ctx : TemplateContext) (cs : List Char) : List Char :=
  replaceVarsDGo ctx cs.length cs

/-- Fuel irrelevance for `replaceVarsDGo`. -/
theorem replaceVarsDGo_congr (ctx : TemplateContext) :
    ∀ f₁ f₂ cs, cs.length ≤ f₁ → cs.length ≤ f₂ →
      replaceVarsDGo ctx f₁ cs = replaceVarsDGo ctx f₂ cs := by
  intro f₁
  induction f₁ with
  | zero =>
    intro f₂ cs h₁ h₂
    have : cs = [] := List.length_eq_zero.mp (Nat.le_zero.mp h₁)
    subst this
    cases f₂ <;> simp [replaceVarsDGo, findVarMatch]
  | succ f ih =>
    intro f₂ cs h₁ h₂
    cases f₂ with
    | zero =>
      have : cs = [] := List.length_eq_zero.mp (Nat.le_zero.mp h₂)
      subst this
      simp [replaceVarsDGo, findVarMatch]
    | succ f₂' =>
      simp only [replaceVarsDGo]
      rcases hm : findVarMatch cs with _ | ⟨b, n, a⟩
      · rfl
      · have ha := findVarMatch_length_lt hm
        dsimp only
        rw [ih f₂' a (by omega) (by omega)]

/-- Unfolding equation for `replaceVarsD`. -/
theorem replaceVarsD_eq (ctx : TemplateContext) (cs : List Char) :
    replaceVarsD ctx cs =
      match findVarMatch cs with
      | none => cs
      | some (b, n, a) =>
        b ++ ((ctxGet ctx (String.mk n)).getD "").data ++ replaceVarsD ctx a := by
  rcases hm : findVarMatch cs with _ | ⟨b, n, a⟩
  · rcases cs with _ | ⟨c, cs'⟩
    · rfl
    · simp only [replaceVarsD, List.length_cons, replaceVarsDGo, hm]
  · have ha := findVarMatch_length_lt hm
    rcases hl : cs.length with _ | k
    · omega
    · simp only [replaceVarsD, hl, replaceVarsDGo, hm]
      have := replaceVarsDGo_congr ctx k a.length a (by omega) le_rfl
      rw [this]

/-- Fuel-based loop of `replaceVarsE`. -/
def replaceVarsEGo (ctx : TemplateContext) : Nat → List Char → Except String (List Char)
  | 0, cs => .ok cs
  | fuel + 1, cs =>
    match findVarMatch cs with
    | none => .ok cs
    | some (b, n, a) =>
      match ctxGet ctx (String.mk n) with
      | none => .error ("Required template variable is empty or missing: " ++ String.mk n)
      | some v =>
        if v = "" then
          .error ("Required template variable is empty or missing: " ++ String.mk n)
        else
          (replaceVarsEGo ctx fuel a).map fun t => b ++ v.data ++ t

/-- `replaceRequiredVariables`: substitution that fails on the first
variable whose value is absent or empty. -/
def replaceVarsE (ctx : TemplateContext) (cs : List Char) : Except String (List Char) :=
  replaceVarsEGo ctx cs.length cs

/-- Fuel irrelevance for `replaceVarsEGo`. -/
theorem replaceVarsEGo_congr (ctx : TemplateContext) :
    ∀ f₁ f₂ cs, cs.length ≤ f₁ → cs.length ≤ f₂ →
      replaceVarsEGo ctx f₁ cs = replaceVarsEGo ctx f₂ cs := by
  intro f₁
  induction f₁ with
  | zero =>
    intro f₂ cs h₁ h₂
    have : cs = [] := List.length_eq_zero.mp (Nat.le_zero.mp h₁)
    subst this
    cases f₂ <;> simp [replaceVarsEGo, findVarMatch]
  | succ f ih =>
    intro f₂ cs h₁ h₂
    cases f₂ with
    | zero =>
      have : cs = [] := List.length_eq_zero.mp (Nat.le_zero.mp h₂)
      subst this
      simp [replaceVarsEGo, findVarMatch]
    | succ f₂' =>
      simp only [replaceVarsEGo]
      rcases hm : findVarMatch cs with _ | ⟨b, n, a⟩
      · rfl
      · have ha := findVarMatch_length_lt hm
        dsimp only
        rw [ih f₂' a (by omega) (by omega)]

/-- Unfolding equation for `replaceVarsE`. -/
theorem replaceVarsE_eq (ctx : TemplateContext) (cs : List Char) :
    replaceVarsE ctx cs =
      match findVarMatch cs with
      | none => .ok cs
      | some (b, n, a) =>
        match ctxGet ctx (String.mk n) with
        | none => .error ("Required template variable is empty or missing: " ++ String.mk n)
        | some v =>
          if v = "" then
            .error ("Required template variable is empty or missing: " ++ String.mk n)
          else
            (replaceVarsE ctx a).map fun t => b ++ v.data ++ t := by
  rcases hm : findVarMatch cs with _ | ⟨b, n, a⟩
  · rcases cs with _ | ⟨c, cs'⟩
    · rfl
    · simp only [replaceVarsE, List.length_cons, replaceVarsEGo, hm]
  · have ha := findVarMatch_length_lt hm
    rcases hl : cs.length with _ | k
    · omega
    · simp only [replaceVarsE, hl, replaceVarsEGo, hm]
      have := replaceVarsEGo_congr ctx k a.length a (by omega) le_rfl
      rw [this]

/-- Earliest `?$` closing an optional section (the non-greedy `(.*?)\?\$`;
`.` does not match a newline). -/
def scanClose : List Char → Option (List Char × List Char)
  | [] => none
  | c :: rest =>
    if c = '?' && rest.head? = some '$' then some ([], rest.tail)
    else if c = '\n' then none
    else (scanClose rest).map fun (ct, af) => (c :: ct, af)

/-- A successful `scanClose` decomposes its input as
`content ++ '?' :: '$' :: after`. -/
theorem scanClose_decomp :
    ∀ cs ct af, scanClose cs = some (ct, af) → cs = ct ++ '?' :: '$' :: af := by
  intro cs
  induction cs with
  | nil => intro ct af h; simp [scanClose] at h
  | cons c rest ih =>
    intro ct af h
    rw [scanClose] at h
    split at h
    · next hcond =>
      simp only [Bool.and_eq_true, decide_eq_true_eq] at hcond
      obtain ⟨hc, hh⟩ := hcond
      obtain ⟨rfl, rfl⟩ : ct = [] ∧ af = rest.tail := by cases h; exact ⟨rfl, rfl⟩
      subst hc
      rcases rest with _ | ⟨d, ds⟩
      · simp at hh
      · simp only [List.head?_cons, Option.some_inj] at hh
        subst hh
        rfl
    · split at h
      · simp at h
      · simp only [Option.map_eq_some'] at h
        obtain ⟨⟨ct', af'⟩, hm, he⟩ := h
        obtain ⟨rfl, rfl⟩ : ct = c :: ct' ∧ af = af' := by cases he; exact ⟨rfl, rfl⟩
        rw [ih _ _ hm]
        rfl

/-- First match of `/\$\?(.*?)\?\$/` : returns (before, section content,
after).  On an unclosed `$?` the scanner advances past the `$` and
continues, as the JS engine does. -/
def findOptMatch : List Char → Option (List Char × List Char × List Char)
  | [] => none
  | c :: rest =>
    if c = '$' && rest.head? = some '?' then
      match scanClose rest.tail with
      | some (content, after) => some ([], content, after)
      | none => (findOptMatch rest).map fun (b, ct, a) => (c :: b, ct, a)
    else
      (findOptMatch rest).map fun (b, ct, a) => (c :: b, ct, a)

/-- A successful `findOptMatch` decomposes its input as
`before ++ "$?" ++ content ++ "?$" ++ after`. -/
theorem findOptMatch_decomp :
    ∀ cs b ct a, findOptMatch cs = some (b, ct, a) →
      cs = b ++ '$' :: '?' :: (ct ++ '?' :: '$' :: a) := by
  intro cs
  induction cs with
  | nil => intro b ct a h; simp [findOptMatch] at h
  | cons c rest ih =>
    intro b ct a h
    rw [findOptMatch] at h
    split at h
    · next hcond =>
      simp only [Bool.and_eq_true, decide_eq_true_eq] at hcond
      obtain ⟨hc, hh⟩ := hcond
      split at h
      · next content after hs =>
        obtain ⟨rfl, rfl, rfl⟩ : b = [] ∧ ct = content ∧ a = after := by
          cases h; exact ⟨rfl, rfl, rfl⟩
        subst hc
        rcases rest with _ | ⟨d, ds⟩
        · simp at hh
        · simp only [List.head?_cons, Option.some_inj] at hh
          subst hh
          simp only [List.tail_cons] at hs
          rw [scanClose_decomp _ _ _ hs]
          rfl
      · simp only [Option.map_eq_some'] at h
        obtain ⟨⟨b', ct', a'⟩, hm, he⟩ := h
        obtain ⟨rfl, rfl, rfl⟩ : b = c :: b' ∧ ct = ct' ∧ a = a' := by
          cases he; exact ⟨rfl, rfl, rfl⟩
        rw [ih _ _ _ hm]
        rfl
    · simp only [Option.map_eq_some'] at h
      obtain ⟨⟨b', ct', a'⟩, hm, he⟩ := h
      obtain ⟨rfl, rfl, rfl⟩ : b = c :: b' ∧ ct = ct' ∧ a = a' := by
        cases he; exact ⟨rfl, rfl, rfl⟩
      rw [ih _ _ _ hm]
      rfl

/-- The suffix returned by `findOptMatch` is shorter than the input. -/
theorem findOptMatch_length_lt {cs b ct a : List Char}
    (h : findOptMatch cs = some (b, ct, a)) : a.length < cs.length := by
  have := findOptMatch_decomp cs b ct a h
  subst this
  simp only [List.length_append, List.length_cons]
  omega

/-- Fuel-based loop of `processOptSections`. -/
def processOptSectionsGo (ctx : TemplateContext) : Nat → List Char → List Char
  | 0, cs => cs
  | fuel + 1, cs =>
    match findOptMatch cs with
    | none => cs
    | some (b, content, after) =>
      let allPresent := (collectVars content).all fun n =>
        match ctxGet ctx n with
        | some v => decide (v ≠ "")
        | none => false
      b ++ (if allPresent then replaceVarsD ctx content else []) ++
        processOptSectionsGo ctx fuel after

/-- `processOptionalSections`: each `$?...?$` section is kept (with its
variables substituted) exactly when every variable referenced inside has a
non-empty value; otherwise it is removed entirely. -/
def processOptSections (ctx : TemplateContext) (cs : List Char) : List Char :=
  processOptSectionsGo ctx cs.length cs

/-- Fuel irrelevance for `processOptSectionsGo`. -/
theorem processOptSectionsGo_congr (ctx : TemplateContext) :
    ∀ f₁ f₂ cs, cs.length ≤ f₁ → cs.length ≤ f₂ →
      processOptSectionsGo ctx f₁ cs = processOptSectionsGo ctx f₂ cs := by
  intro f₁
  induction f₁ with
  | zero =>
    intro f₂ cs h₁ h₂
    have : cs = [] := List.length_eq_zero.mp (Nat.le_zero.mp h₁)
    subst this
    cases f₂ <;> simp [processOptSectionsGo, findOptMatch]
  | succ f ih =>
    intro f₂ cs h₁ h₂
    cases f₂ with
    | zero =>
      have : cs = [] := List.length_eq_zero.mp (Nat.le_zero.mp h₂)
      subst this
      simp [processOptSectionsGo, findOptMatch]
    | succ f₂' =>
      simp only [processOptSectionsGo]
      rcases hm : findOptMatch cs with _ | ⟨b, ct, a⟩
      · rfl
      · have ha := findOptMatch_length_lt hm
        dsimp only
        rw [ih f₂' a (by omega) (by omega)]

/-- Unfolding equation for `processOptSections`. -/
theorem processOptSections_eq (ctx : TemplateContext) (cs : List Char) :
    processOptSections ctx cs =
      match findOptMatch cs with
      | none => cs
      | some (b, content, after) =>
        let allPresent := (collectVars content).all fun n =>
          match ctxGet ctx n with
          | some v => decide (v ≠ "")
          | none => false
        b ++ (if allPresent then replaceVarsD ctx content else []) ++
          processOptSections ctx after := by
  rcases hm : findOptMatch cs with _ | ⟨b, ct, a⟩
  · rcases cs with _ | ⟨c, cs'⟩
    · rfl
    · simp only [processOptSections, List.length_cons, processOptSectionsGo, hm]
  · have ha := findOptMatch_length_lt hm
    rcases hl : cs.length with _ | k
    · omega
    · simp only [processOptSections, hl, processOptSectionsGo, hm]
      rw [processOptSectionsGo_congr ctx k a.length a (by omega) le_rfl]

/-- Fuel-based loop of `collapseWs`. -/
def collapseWsGo : Nat → List Char → List Char
  | 0, cs => cs
  | _ + 1, [] => []
  | fuel + 1, c :: rest =>
    if isWs c && (rest.head?.map isWs).getD false then
      ' ' :: collapseWsGo fuel (rest.dropWhile isWs)
    else
      c :: collapseWsGo fuel rest

/-- `replaceAll(/\s{2,}/g, ' ')`: every run of two or more whitespace
characters collapses to a single space. -/
def collapseWs (cs : List Char) : List Char :=
  collapseWsGo cs.length cs

/-- Fuel irrelevance for `collapseWsGo`. -/
theorem collapseWsGo_congr :
    ∀ f₁ f₂ cs, cs.length ≤ f₁ → cs.length ≤ f₂ →
      collapseWsGo f₁ cs = collapseWsGo f₂ cs := by
  intro f₁
  induction f₁ with
  | zero =>
    intro f₂ cs h₁ h₂
    have : cs = [] := List.length_eq_zero.mp (Nat.le_zero.mp h₁)
    subst this
    cases f₂ <;> simp [collapseWsGo]
  | succ f ih =>
    intro f₂ cs h₁ h₂
    cases f₂ with
    | zero =>
      have : cs = [] := List.length_eq_zero.mp (Nat.le_zero.mp h₂)
      subst this
      simp [collapseWsGo]
    | succ f₂' =>
      rcases cs with _ | ⟨c, rest⟩
      · rfl
      · have hdw := (@List.dropWhile_sublist _ rest isWs).length_le
        simp only [List.length_cons] at h₁ h₂
        simp only [collapseWsGo]
        rw [ih f₂' (rest.dropWhile isWs) (by omega) (by omega),
          ih f₂' rest (by omega) (by omega)]

/-- Unfolding equation for `collapseWs`. -/
theorem collapseWs_eq (cs : List Char) :
    collapseWs cs =
      match cs with
      | [] => []
      | c :: rest =>
        if isWs c && (rest.head?.map isWs).getD false then
          ' ' :: collapseWs (rest.dropWhile isWs)
        else
          c :: collapseWs rest := by
  rcases cs with _ | ⟨c, rest⟩
  · rfl
  · have hdw := (@List.dropWhile_sublist _ rest isWs).length_le
    simp only [collapseWs, List.length_cons, collapseWsGo]
    rw [collapseWsGo_congr rest.length (rest.dropWhile isWs).length
        (rest.dropWhile isWs) (by omega) le_rfl]

/-- `isCommandTemplate(command)`: the string contains a `$name$`
placeholder. -/
def isCommandTemplate (command : String) : Bool :=
  (findVarMatch command.data).isSome

/-- `interpolateCommandTemplate(template, context)`: optional sections
first, then required variables (failure names the first missing one), then
whitespace collapse and trim. -/
def interpolateCommandTemplate (template : String) (ctx : TemplateContext) :
    Except String String :=
  (replaceVarsE ctx (processOptSections ctx template.data)).map
    fun cs => jsTrim (String.mk (collapseWs cs))

/-- `interpolateCommands(commands, config)` with the template context (built
from the configuration by `buildTemplateContext`) passed explicitly:
non-template entries pass through unchanged. -/
def interpolateCommands (commands : List String) (ctx : TemplateContext) :
    Except String (List String) :=
  commands.mapM fun cmd =>
    if isCommandTemplate cmd then interpolateCommandTemplate cmd ctx else .ok cmd

/-! ## `src/lib/command-generator/command-generator.ts` -/

/-- Strip the leading `~` bundle marker (`path.replace(/^~/, '')`). -/
def stripTilde (path : String) : String :=
  match path.data with
  | '~' :: rest => String.mk rest
  | _ => path

/-- Helper for `stripBraceSuffix`: the prefix of `body` before the first
`{` that is followed by no further `}` inside `body` — the first position
at which `/\{[^}]*\}$/` can match once the final `}` has been split off. -/
def stripBraceBody : List Char → Option (List Char)
  | [] => none
  | c :: rest =>
    if c = '{' && !rest.contains '}' then some []
    else (stripBraceBody rest).map (c :: ·)

/-- `path.replace(/\{[^}]*\}$/, '')`: remove a trailing `{...}` template
suffix. -/
def stripBraceSuffix (path : String) : String :=
  match path.data.getLast? with
  | some '}' =>
    match stripBraceBody path.data.dropLast with
    | some pre => String.mk pre
    | none => path
  | _ => path

/-- The cleaned path used for priority lookup. -/
def cleanLuaPath (path : String) : String :=
  stripBraceSuffix (stripTilde path)

/-- `getLuaPriority(path)` with the (absent) `LUA_PRIORITIES` table and
`DEFAULT_LUA_PRIORITY` passed explicitly. -/
def getLuaPriority (prios : List (String × Nat)) (defaultPrio : Nat) (path : String) : Nat :=
  ((List.find? (·.1 = cleanLuaPath path) prios).map (·.2)).getD defaultPrio

/-- Modelled from the spec: `resolveLuaReference(path, luaFileMap)` of the
absent interpolator module — strips the `~` marker and looks the path up in
the bundle; a path absent from the bundle contributes no content (§4.6). -/
def resolveLuaReference (path : String) (luaFileMap : List (String × String)) : String :=
  ((List.find? (·.1 = stripTilde path) luaFileMap).map (·.2)).getD ""

/-- `resolveLuaSources(luaFileMap, paths)`. -/
def resolveLuaSources (prios : List (String × Nat)) (defaultPrio : Nat)
    (luaFileMap : List (String × String)) (paths : List String) : List LuaSource :=
  paths.map fun path =>
    { path := path
      content := jsTrim (resolveLuaReference path luaFileMap)
      priority := getLuaPriority prios defaultPrio path }

/-- `sortLua(sources)`: stable ascending sort by priority
(`toSorted((a, b) => a.priority - b.priority)`). -/
def sortLua (sources : List LuaSource) : List LuaSource :=
  stableSortBy (fun a b => a.priority ≤ b.priority) sources

/-- A custom tweak with its enabled flag (`EnabledCustomTweak`). -/
structure EnabledCustomTweak where
  id : Nat
  description : String
  type : LuaTweakType
  code : String
  enabled : Bool
deriving DecidableEq, Repr

/-- A single custom tweak allocation (`CustomTweakAllocation`). -/
structure CustomTweakAllocation where
  tweak : EnabledCustomTweak
  slotIndex : Nat
  command : String
deriving DecidableEq, Repr

/-- Result of allocating custom tweaks (`CustomTweakAllocationResult`). -/
structure AllocationResult where
  commands : List String
  dropped : List EnabledCustomTweak
  allocatedDefs : Nat
  allocatedUnits : Nat
  allocations : List CustomTweakAllocation
deriving DecidableEq, Repr

/-- The per-type pair of used-slot sets. -/
structure UsedSlots where
  defs : List Nat
  units : List Nat
deriving DecidableEq, Repr

/-- Used-slot set of one type. -/
def UsedSlots.get (u : UsedSlots) : LuaTweakType → List Nat
  | .tweakdefs => u.defs
  | .tweakunits => u.units

/-- Record one more used slot of one type. -/
def UsedSlots.add (u : UsedSlots) : LuaTweakType → Nat → UsedSlots
  | .tweakdefs, i => { u with defs := u.defs ++ [i] }
  | .tweakunits, i => { u with units := u.units ++ [i] }

/-- Match of `/!bset\s+(tweakdefs|tweakunits)(\d?)\s/` at the start of the
character list. -/
def matchSlotAt (cs : List Char) : Option (LuaTweakType × Nat) :=
  if "!bset".data.isPrefixOf cs then
    let cs1 := cs.drop 5
    if (cs1.takeWhile isWs).isEmpty then none
    else
      let cs2 := cs1.dropWhile isWs
      let tryType := fun (ty : LuaTweakType) =>
        if ty.name.data.isPrefixOf cs2 then
          match cs2.drop ty.name.length with
          | d :: w :: _ =>
            if isDigitChar d && isWs w then some (ty, d.toNat - 48)
            else if isWs d then some (ty, 0)
            else none
          | [d] => if isWs d then some (ty, 0) else none
          | [] => none
        else none
      (tryType .tweakdefs).orElse fun _ => tryType .tweakunits
  else none

/-- First match of the slot regex anywhere in the string (`cmd.match`). -/
def matchSlotRegex (cs : List Char) : Option (LuaTweakType × Nat) :=
  match cs with
  | [] => none
  | _ :: rest => (matchSlotAt cs).orElse fun _ => matchSlotRegex rest

/-- The used-slot sets parsed from the existing `!bset` commands. -/
def initialUsedSlots (existingCommands : List String) : UsedSlots :=
  existingCommands.foldl
    (fun u cmd =>
      match matchSlotRegex cmd.data with
      | some (ty, num) => u.add ty num
      | none => u)
    ⟨[], []⟩

/-- First free slot index in 1–9 (slot 0 is reserved for packed sources). -/
def findFreeSlot (used : List Nat) : Option Nat :=
  (List.range' 1 9).find? fun i => !used.contains i

/-- Allocation loop of `allocateCustomTweaks`: returns (allocations,
dropped, allocated-tweakdefs count, allocated-tweakunits count). -/
def allocLoop (maxSlot : Nat) :
    List EnabledCustomTweak → UsedSlots →
      List CustomTweakAllocation × List EnabledCustomTweak × Nat × Nat
  | [], _ => ([], [], 0, 0)
  | t :: rest, used =>
    match findFreeSlot (used.get t.type) with
    | none =>
      let (as_, ds, ad, au) := allocLoop maxSlot rest used
      (as_, t :: ds, ad, au)
    | some slot =>
      let command := "!bset " ++ formatSlotName t.type slot ++ " " ++ t.code
      if maxSlot < command.length then
        let (as_, ds, ad, au) := allocLoop maxSlot rest used
        (as_, t :: ds, ad, au)
      else
        let (as_, ds, ad, au) := allocLoop maxSlot rest (used.add t.type slot)
        (⟨t, slot, command⟩ :: as_, ds,
          ad + (if t.type = .tweakdefs then 1 else 0),
          au + (if t.type = .tweakunits then 1 else 0))

/-- `allocateCustomTweaks(existingCommands, customTweaks)` with the (absent)
`MAX_SLOT_SIZE` passed explicitly. -/
def allocateCustomTweaks (maxSlot : Nat) (existingCommands : List String)
    (customTweaks : Option (List EnabledCustomTweak)) : AllocationResult :=
  match customTweaks with
  | none => ⟨[], [], 0, 0, []⟩
  | some tweaks =>
    if tweaks.isEmpty then ⟨[], [], 0, 0, []⟩
    else
      let (allocations, dropped, ad, au) :=
        allocLoop maxSlot tweaks (initialUsedSlots existingCommands)
      ⟨allocations.map (·.command), dropped, ad, au, allocations⟩

/-- Complete result of command generation (`PackingResult`); a chunk is its
command list. -/
structure PackingResult where
  chunks : List (List Command)
  slotUsageDefs : Nat
  slotUsageUnits : Nat
  droppedCustomTweaks : List EnabledCustomTweak
deriving Repr

/-- Loop of `groupIntoChunks`: validate each command against `MAX_SLOT_SIZE`
and accumulate into chunks bounded by `MAX_CHUNK_SIZE`. -/
def groupIntoChunksLoop (maxChunk maxSlot : Nat) :
    List Command → List Command → Nat → Except String (List (List Command))
  | [], current, _ => .ok (if current.isEmpty then [] else [current])
  | cmd :: rest, current, size =>
    if maxSlot < cmd.command.length then
      .error ("Command exceeds maximum length: " ++ toString cmd.command.length ++
        " > " ++ toString maxSlot ++ ". This indicates a bug in command generation.")
    else
      let separatorLength := if current.isEmpty then 0 else 1
      let cmdSize := cmd.command.length + separatorLength
      if maxChunk < size + cmdSize && !current.isEmpty then
        (groupIntoChunksLoop maxChunk maxSlot rest [cmd] cmd.command.length).map
          (current :: ·)
      else
        groupIntoChunksLoop maxChunk maxSlot rest (current ++ [cmd]) (size + cmdSize)

/-- `groupIntoChunks(commands)` with the (absent) `MAX_CHUNK_SIZE` and
`MAX_SLOT_SIZE` passed explicitly. -/
def groupIntoChunks (maxChunk maxSlot : Nat) (commands : List Command) :
    Except String (List (List Command)) :=
  groupIntoChunksLoop maxChunk maxSlot commands [] 0

/-- Result of validating a Base64URL tweak (`TweakValidationResult`). -/
structure TweakValidationResult where
  valid : Bool
  firstLine : Option String
  error : Option String
deriving DecidableEq, Repr

/-- Test of `/^[A-Za-z0-9_-]+$/`. -/
def isB64UrlCharset (s : String) : Bool :=
  !s.data.isEmpty && s.data.all fun c =>
    ('A' ≤ c && c ≤ 'Z') || ('a' ≤ c && c ≤ 'z') || ('0' ≤ c && c ≤ '9') ||
      c = '-' || c = '_'

/-- `validateBase64UrlTweak(code)`. -/
def validateBase64UrlTweak (code : String) : TweakValidationResult :=
  if code = "" || jsTrim code = "" then
    { valid := false, firstLine := none, error := some "Code cannot be empty" }
  else if !isB64UrlCharset (jsTrim code) then
    { valid := false, firstLine := none,
      error := some "Invalid Base64URL characters. Use only A-Z, a-z, 0-9, - and _" }
  else
    match decodeB64Url (jsTrim code) with
    | none =>
      { valid := false, firstLine := none, error := some "Failed to decode Base64URL" }
    | some decoded =>
      if decoded = "" || jsTrim decoded = "" then
        { valid := false, firstLine := none, error := some "Decoded content is empty" }
      else
        let firstLine := jsTrim ((splitLines decoded).headD "")
        { valid := true,
          firstLine := some (if firstLine = "" then "(empty first line)" else firstLine),
          error := none }

/-- The mapper's output for one configuration (`getMappedData`'s shape).
Modelled from the spec: the mapper module is absent from the source tree, so
`generateCommands` below is embedded over an arbitrary mapper result. -/
structure MappedData where
  commands : List String
  tweakdefs : List String
  tweakunits : List String

/-- The plain-command comparator of step 6 (`!preset` first): `le a b`
states that `a` may stay before `b` under
`(a, b) => a.startsWith('!preset') ... ? -1 : ... 1 : 0`. -/
def presetLe (a b : String) : Bool :=
  !(!("!preset".data.isPrefixOf a.data) && "!preset".data.isPrefixOf b.data)

/-- One custom-tweak `Command` (the body of the `customCommands` map in
`generateCommands`): decode the stored code for the UI preview, tag the
content and the synthetic source with the tweak's description. -/
def buildCustomCommand (a : CustomTweakAllocation) : Except String Command :=
  match decodeB64Url a.tweak.code with
  | none => .error "Failed to decode Base64URL"
  | some decoded =>
    .ok
      { type := a.tweak.type.toTweakType
        command := a.command
        slot := some
          { index := a.slotIndex
            sources := ["custom:" ++ a.tweak.description]
            content := "-- Custom Tweak: " ++ a.tweak.description ++ "\n" ++ decoded } }

/-- The `customCommands` map of `generateCommands` over all allocations. -/
def buildCustomCommands : List CustomTweakAllocation → Except String (List Command)
  | [] => .ok []
  | a :: rest => do
    let c ← buildCustomCommand a
    let cs ← buildCustomCommands rest
    pure (c :: cs)

/-- `generateCommands(configuration, luaFiles, customTweaks?)`, embedded
over the mapper result and the template context (both derived from the
absent mapper/configuration modules) and over the absent size constants. -/
def generateCommands (prios : List (String × Nat)) (defaultPrio : Nat)
    (target maxChunk maxSlot : Nat) (mapped : MappedData) (ctx : TemplateContext)
    (luaFiles : List (String × String))
    (customTweaks : Option (List EnabledCustomTweak)) : Except String PackingResult := do
  let interpolatedCommands ← interpolateCommands mapped.commands ctx
  let tweakdefsResult ← packLuaSources target maxSlot
    (sortLua (resolveLuaSources prios defaultPrio luaFiles mapped.tweakdefs)) .tweakdefs
  let tweakunitsResult ← packLuaSources target maxSlot
    (sortLua (resolveLuaSources prios defaultPrio luaFiles mapped.tweakunits)) .tweakunits
  let existingBsetCommands :=
    tweakdefsResult.commands.map (·.command) ++ tweakunitsResult.commands.map (·.command)
  let allocationResult := allocateCustomTweaks maxSlot existingBsetCommands
    (customTweaks.map (·.filter (·.enabled)))
  let customCommands ← buildCustomCommands allocationResult.allocations
  let allCommands : List Command :=
    (stableSortBy presetLe interpolatedCommands).map
      (fun cmd => { type := TweakType.command, command := cmd, slot := none }) ++
    tweakdefsResult.commands ++ tweakunitsResult.commands ++ customCommands
  let chunks ← groupIntoChunks maxChunk maxSlot allCommands
  pure
    { chunks := chunks
      slotUsageDefs := tweakdefsResult.used + allocationResult.allocatedDefs
      slotUsageUnits := tweakunitsResult.used + allocationResult.allocatedUnits
      droppedCustomTweaks := allocationResult.dropped }

/-! ## Claim theorems -/

/-- Phase-2 characterization of the `extractTopComments` loop: once a
comment line has been found, the loop appends exactly the comment lines of
the longest prefix of blank-or-comment lines, each with a trailing
newline. -/
theorem extractTopCommentsLoop_true (ls : List String) :
    ∀ out, extractTopCommentsLoop ls out true =
      out ++ ((ls.takeWhile fun l => isBlankLine l || isCommentLine l).filter
          isCommentLine).foldr (fun l acc => l ++ "\n" ++ acc) "" := by
  induction ls with
  | nil => intro out; simp [extractTopCommentsLoop]
  | cons l rest ih =>
    intro out
    rw [extractTopCommentsLoop]
    by_cases hc : isCommentLine l
    · rw [if_pos hc, ih]
      simp only [List.takeWhile_cons, hc, Bool.or_true, List.filter_cons, if_pos]
      simp [String.append_assoc]
    · rw [if_neg hc]
      by_cases hb : isBlankLine l
      · have : (!isBlankLine l && true) = false := by simp [hb]
        rw [if_neg (by simp [hb]), ih]
        simp [List.takeWhile_cons, hb, List.filter_cons, hc]
      · rw [if_pos (by simp [hb])]
        simp only [List.takeWhile_cons, hb, hc, Bool.or_self, Bool.false_or]
        simp

/-- Phase-1 characterization: before any comment line has been found, every
line (blank or code alike) is skipped. -/
theorem extractTopCommentsLoop_false (ls : List String) :
    ∀ out, extractTopCommentsLoop ls out false =
      extractTopCommentsLoop (ls.dropWhile fun l => !isCommentLine l) out false := by
  induction ls with
  | nil => intro out; simp
  | cons l rest ih =>
    intro out
    by_cases hc : isCommentLine l
    · simp [List.dropWhile_cons, hc]
    · rw [extractTopCommentsLoop, if_neg hc, if_neg (by simp), ih]
      simp [List.dropWhile_cons, hc]

/-- C9: `extractTopComments`, applied to any string, accumulates each
leading-dash comment line with its original dashes and a trailing newline;
blank lines are always skipped (before, between, or after comment lines)
and never terminate the scan; the first line that is neither blank nor a
comment, met after at least one comment line was accumulated, terminates
the scan; the result is the accumulated text, or the empty string if no
comment line was ever found.  Equivalently: lines before the first comment
line contribute nothing, and from the first comment line on, the result is
exactly the comment lines of the longest prefix of blank-or-comment lines,
each suffixed with a newline. -/
theorem extractTopComments_characterization (content : String) :
    extractTopComments content =
      ((((splitLines content).dropWhile fun l => !isCommentLine l).takeWhile
          fun l => isBlankLine l || isCommentLine l).filter isCommentLine).foldr
        (fun l acc => l ++ "\n" ++ acc) "" := by
  rw [extractTopComments, extractTopCommentsLoop_false]
  rcases hd : (splitLines content).dropWhile fun l => !isCommentLine l with _ | ⟨l, rest⟩
  · simp [extractTopCommentsLoop]
  · have hc : isCommentLine l := by
      have := List.head_dropWhile_not (fun l => !isCommentLine l) (splitLines content)
      rw [hd] at this
      simpa using this (by simp)
    rw [extractTopCommentsLoop, if_pos hc, extractTopCommentsLoop_true]
    simp only [List.takeWhile_cons, hc, Bool.or_true, List.filter_cons, if_pos]
    simp [String.append_assoc]

/-- The head of a `dropWhile` result falsifies the predicate. -/
theorem dropWhile_head_false {p : Char → Bool} {l : List Char} {c : Char} {t : List Char}
    (h : l.dropWhile p = c :: t) : p c = false := by
  have := List.head_dropWhile_not p l
  rw [h] at this
  simpa using this (by simp)

/-- `dropWhile` is the identity when the head falsifies the predicate. -/
theorem dropWhile_eq_self_of_head {p : Char → Bool} {l : List Char}
    (h : ∀ c t, l = c :: t → p c = false) : l.dropWhile p = l := by
  cases l with
  | nil => rfl
  | cons c t => rw [List.dropWhile_cons, if_neg]; simp [h c t rfl]

/-- `getLast?` of a non-empty suffix agrees with the whole list. -/
theorem getLastq_of_suffix {l₁ l₂ : List Char} (h : l₁ <:+ l₂) (hne : l₁ ≠ []) :
    l₁.getLast? = l₂.getLast? := by
  obtain ⟨pre, rfl⟩ := h
  rw [List.getLast?_append_of_ne_nil]
  exact hne

/-- The character-list body of `jsTrim`. -/
def trimCharList (l : List Char) : List Char :=
  ((l.dropWhile isWs).reverse.dropWhile isWs).reverse

/-- `trimCharList` is idempotent. -/
theorem trimCharList_idem (l : List Char) : trimCharList (trimCharList l) = trimCharList l := by
  set v := l.dropWhile isWs with hv
  set u := v.reverse.dropWhile isWs with hu
  show trimCharList u.reverse = u.reverse
  by_cases hune : u = []
  · rw [hune]; rfl
  · have step1 : u.reverse.dropWhile isWs = u.reverse := by
      apply dropWhile_eq_self_of_head
      intro c t hrev
      have h1 : u.reverse.head? = some c := by rw [hrev]; rfl
      have h2 : u.getLast? = some c := by
        rw [← List.head?_reverse]
        exact h1
      have h3 : u.getLast? = v.reverse.getLast? :=
        getLastq_of_suffix (List.dropWhile_suffix isWs) hune
      have h4 : v.reverse.getLast? = v.head? := List.getLast?_reverse v
      have hvh : v.head? = some c := by rw [← h4, ← h3, h2]
      rcases hvc : v with _ | ⟨d, ds⟩
      · rw [hvc] at hvh; simp at hvh
      · have : d = c := by rw [hvc] at hvh; simpa using hvh
        subst this
        exact @dropWhile_head_false isWs l _ _ hvc
    have step2 : u.dropWhile isWs = u := by
      apply dropWhile_eq_self_of_head
      intro c t hct
      exact @dropWhile_head_false isWs v.reverse _ _ (hu.symm.trans hct)
    show ((u.reverse.dropWhile isWs).reverse.dropWhile isWs).reverse = u.reverse
    rw [step1, List.reverse_reverse, step2]

/-- JS `trim` is idempotent. -/
theorem jsTrim_idem (s : String) : jsTrim (jsTrim s) = jsTrim s :=
  congrArg String.mk (trimCharList_idem s.data)

/-- A successful Base64URL value lookup implies membership in the
Base64URL character set. -/
theorem b64UrlVal_charset {c : Char} {v : Nat} (h : b64UrlVal c = some v) :
    (('A' ≤ c && c ≤ 'Z') || ('a' ≤ c && c ≤ 'z') || ('0' ≤ c && c ≤ '9') ||
      c = '-' || c = '_') = true := by
  rw [b64UrlVal] at h
  repeat' split at h
  all_goals simp_all

/-- A successful character-wise decode implies every character is in the
Base64URL character set. -/
theorem mapM_b64UrlVal_charset :
    ∀ l : List Char, (l.mapM b64UrlVal).isSome →
      l.all (fun c => ('A' ≤ c && c ≤ 'Z') || ('a' ≤ c && c ≤ 'z') ||
        ('0' ≤ c && c ≤ '9') || c = '-' || c = '_') = true := by
  intro l
  induction l with
  | nil => intro _; rfl
  | cons c rest ih =>
    intro h
    rcases hv : b64UrlVal c with _ | v
    · rw [List.mapM_cons, hv] at h
      simp at h
    · rw [List.mapM_cons, hv] at h
      have hrest : (rest.mapM b64UrlVal).isSome := by
        rcases hr : rest.mapM b64UrlVal with _ | r
        · rw [hr] at h; simp at h
        · simp [hr]
      rw [List.all_cons, b64UrlVal_charset hv, ih hrest]
      rfl

/-- A successful `decodeB64Url` on a non-empty string implies the
character-set test passes. -/
theorem decodeB64Url_charset {s d : String} (h : decodeB64Url s = some d)
    (hne : s ≠ "") : isB64UrlCharset s = true := by
  rw [decodeB64Url] at h
  rcases hm : s.data.mapM b64UrlVal with _ | vals
  · rw [hm] at h; simp at h
  · rw [isB64UrlCharset, mapM_b64UrlVal_charset s.data (by rw [hm]; rfl)]
    have : s.data ≠ [] := fun hc => hne (by cases s; simp at hc; simp [hc])
    simp [this]

/-- C10: `validateBase64UrlTweak` validates the trimmed input — its result
on any code equals its result on the trimmed code, so whitespace around an
otherwise valid Base64URL payload is accepted rather than rejected by the
character-set check — and when the decoded content is non-empty but its
first line is blank, the result is `valid := true` with `firstLine` set to
the literal placeholder `(empty first line)`. -/
theorem validateBase64UrlTweak_trim_blankFirstLine :
    (∀ code : String, validateBase64UrlTweak code = validateBase64UrlTweak (jsTrim code)) ∧
    (∀ code decoded : String,
      decodeB64Url (jsTrim code) = some decoded →
      jsTrim decoded ≠ "" →
      jsTrim ((splitLines decoded).headD "") = "" →
      validateBase64UrlTweak code =
        { valid := true, firstLine := some "(empty first line)", error := none }) := by
  constructor
  · intro code
    by_cases h0 : code = ""
    · subst h0; rfl
    · by_cases h1 : jsTrim code = ""
      · simp [validateBase64UrlTweak, h0, h1]
      · simp only [validateBase64UrlTweak, h0, h1, jsTrim_idem, false_or, if_neg]
  · intro code decoded hdec hne hline
    have hdne : decoded ≠ "" := fun h => hne (by rw [h]; rfl)
    have htne : jsTrim code ≠ "" := by
      intro h
      rw [h] at hdec
      have : decoded = "" := by
        have h0 : decodeB64Url "" = some "" := rfl
        rw [h0] at hdec
        exact (Option.some.inj hdec).symm
      exact hdne this
    have hcne : code ≠ "" := fun h => htne (by rw [h]; rfl)
    have hchar := decodeB64Url_charset hdec htne
    rw [validateBase64UrlTweak]
    rw [if_neg (by simp [hcne, htne])]
    rw [if_neg (by simp [hchar])]
    rw [hdec]
    simp only [if_neg (by simp [hdne, hne] :
      ¬((decide (decoded = "") || decide (jsTrim decoded = "")) = true))]
    have hline' : jsTrim ((splitLines decoded).head?.getD "") = "" := by
      simpa using hline
    simp [hline']

/-- Witness for C10: concrete whitespace-padded valid payload, and a
payload decoding to content whose first line is blank. -/
theorem validateBase64UrlTweak_trim_blankFirstLine_witness :
    (validateBase64UrlTweak "  aGVsbG8  " = validateBase64UrlTweak "aGVsbG8" ∧
      validateBase64UrlTweak "  aGVsbG8  " =
        { valid := true, firstLine := some "hello", error := none }) ∧
    (decodeB64Url (jsTrim "CmhlbGxv") = some "\nhello" ∧
      validateBase64UrlTweak "CmhlbGxv" =
        { valid := true, firstLine := some "(empty first line)", error := none }) :=
  ⟨⟨validateBase64UrlTweak_trim_blankFirstLine.1 "  aGVsbG8  ", rfl⟩,
    ⟨rfl, validateBase64UrlTweak_trim_blankFirstLine.2 "CmhlbGxv" "\nhello" rfl
      (by decide) (by decide)⟩⟩

/-- `collapseWs` is the identity when no two adjacent characters are both
whitespace. -/
theorem collapseWs_eq_self :
    ∀ cs : List Char, List.Chain' (fun a b => !(isWs a && isWs b)) cs →
      collapseWs cs = cs := by
  intro cs
  induction cs with
  | nil => intro _; rfl
  | cons c rest ih =>
    intro h
    rcases rest with _ | ⟨d, ds⟩
    · rw [collapseWs_eq]
      dsimp only
      rw [if_neg (by simp)]
      rfl
    · rw [collapseWs_eq]
      dsimp only
      have hpair := (List.chain'_cons.mp h).1
      have hcond : (isWs c && (((d :: ds).head?.map isWs).getD false)) = false := by
        rcases hcw : isWs c <;> rcases hdw : isWs d <;> simp_all
      rw [if_neg (by rw [hcond]; simp)]
      rw [ih (List.chain'_cons.mp h).2]

/-- `jsTrim` is the identity when the first and last characters are not
whitespace. -/
theorem jsTrim_eq_self {s : String}
    (h1 : ∀ c, s.data.head? = some c → isWs c = false)
    (h2 : ∀ c, s.data.getLast? = some c → isWs c = false) : jsTrim s = s := by
  have d1 : s.data.dropWhile isWs = s.data := by
    apply dropWhile_eq_self_of_head
    intro c t hct
    exact h1 c (by rw [hct]; rfl)
  have d2 : s.data.reverse.dropWhile isWs = s.data.reverse := by
    apply dropWhile_eq_self_of_head
    intro c t hct
    apply h2 c
    rw [← List.head?_reverse, hct]
    rfl
  show String.mk _ = s
  rw [d1, d2, List.reverse_reverse]

/-- A dollar-free character list contains no variable match. -/
theorem findVarMatch_eq_none_of_no_dollar :
    ∀ cs : List Char, (∀ c ∈ cs, c ≠ '$') → findVarMatch cs = none := by
  intro cs
  induction cs with
  | nil => intro _; rfl
  | cons c rest ih =>
    intro h
    rw [findVarMatch]
    have hc : c ≠ '$' := h c (by simp)
    rw [if_neg (by simp [hc])]
    rw [ih (fun c hc' => h c (by simp [hc']))]
    rfl

/-- All-non-whitespace lists have no adjacent whitespace pair. -/
theorem chain_of_all_not_ws {l : List Char} (h : l.all (fun c => !isWs c) = true) :
    List.Chain' (fun a b => !(isWs a && isWs b)) l := by
  induction l with
  | nil => exact List.chain'_nil
  | cons c rest ih =>
    rw [List.all_cons] at h
    rcases Bool.and_eq_true_iff.mp h with ⟨hc, hrest⟩
    rw [List.chain'_cons']
    refine ⟨fun y _ => ?_, ih hrest⟩
    simp only [Bool.not_eq_true'] at hc
    simp [hc]

/-- C6: `interpolateCommandTemplate` evaluates optional `$?...?$` sections
before required variables: a section is removed (delimiters included) when a
variable inside is absent or empty — so a required variable appearing only
inside a removed section never raises an error — and kept with its inner
placeholders substituted when every variable inside is non-empty; a `$name$`
placeholder remaining outside optional sections whose value is absent or
empty makes interpolation fail with the error naming the variable; runs of
two-or-more whitespace characters collapse to one space and the result is
trimmed. -/
theorem interpolateCommandTemplate_laws :
    (∀ ctx : TemplateContext,
      (ctxGet ctx "miss" = none ∨ ctxGet ctx "miss" = some "") →
      interpolateCommandTemplate "A $?x $miss$ y?$ B" ctx = .ok "A B") ∧
    (∀ (ctx : TemplateContext) (v : String),
      ctxGet ctx "name" = some v → v ≠ "" →
      v.data.all (fun c => !isWs c && !(c = '$')) = true →
      interpolateCommandTemplate "Hello$?$name$?$!" ctx = .ok ("Hello" ++ v ++ "!")) ∧
    (∀ ctx : TemplateContext,
      (ctxGet ctx "name" = none ∨ ctxGet ctx "name" = some "") →
      interpolateCommandTemplate "Hello $name$!" ctx =
        .error "Required template variable is empty or missing: name") ∧
    (∀ ctx : TemplateContext, interpolateCommandTemplate "  a  b   c  " ctx = .ok "a b c") := by
  refine ⟨?_, ?_, ?_, ?_⟩
  · intro ctx hm
    show (replaceVarsE ctx (processOptSections ctx ("A $?x $miss$ y?$ B").data)).map _ = _
    rw [processOptSections_eq]
    rw [show findOptMatch ("A $?x $miss$ y?$ B").data =
      some (("A ").data, ("x $miss$ y").data, (" B").data) from rfl]
    dsimp only
    rw [show collectVars ("x $miss$ y").data = ["miss"] from rfl]
    have hall : (["miss"].all fun n =>
        match ctxGet ctx n with
        | some v => decide (v ≠ "")
        | none => false) = false := by
      rcases hm with hm | hm <;> simp [hm]
    rw [hall]
    rw [show processOptSections ctx (" B").data = (" B").data from rfl]
    rw [if_neg (by simp)]
    rw [show ("A ").data ++ ([] : List Char) ++ (" B").data = ("A  B").data from rfl]
    rw [show replaceVarsE ctx ("A  B").data = .ok ("A  B").data from rfl]
    rfl
  · intro ctx v hv hvne hvchar
    have hvws : v.data.all (fun c => !isWs c) = true := by
      rw [List.all_eq_true]
      intro c hc
      exact ((Bool.and_eq_true_iff.mp (List.all_eq_true.mp hvchar c hc)).1)
    have hvnd : ∀ c ∈ v.data, c ≠ '$' := by
      intro c hc
      have := (Bool.and_eq_true_iff.mp (List.all_eq_true.mp hvchar c hc)).2
      simpa using this
    have hall : (["name"].all fun n =>
        match ctxGet ctx n with
        | some v => decide (v ≠ "")
        | none => false) = true := by
      simp [hv, hvne]
    have hopt : processOptSections ctx ("Hello$?$name$?$!").data =
        ("Hello").data ++ v.data ++ ("!").data := by
      rw [processOptSections_eq]
      rw [show findOptMatch ("Hello$?$name$?$!").data =
        some (("Hello").data, ("$name$").data, ("!").data) from rfl]
      dsimp only
      rw [show collectVars ("$name$").data = ["name"] from rfl]
      rw [hall, if_pos rfl]
      rw [replaceVarsD_eq]
      rw [show findVarMatch ("$name$").data = some ([], ("name").data, []) from rfl]
      dsimp only
      rw [show String.mk ("name").data = "name" from rfl, hv]
      rw [show replaceVarsD ctx ([] : List Char) = [] from rfl]
      rw [show processOptSections ctx ("!").data = ("!").data from rfl]
      simp
    have hHello : ∀ c ∈ ("Hello").data, c ≠ '$' := by decide
    have hBang : ∀ c ∈ ("!").data, c ≠ '$' := by decide
    have hnd : ∀ c ∈ ("Hello").data ++ v.data ++ ("!").data, c ≠ '$' := by
      intro c hc
      rcases List.mem_append.mp hc with hc | hc
      · rcases List.mem_append.mp hc with hc | hc
        · exact hHello c hc
        · exact hvnd c hc
      · exact hBang c hc
    have hvarsm : findVarMatch (("Hello").data ++ v.data ++ ("!").data) = none :=
      findVarMatch_eq_none_of_no_dollar _ hnd
    have hrve : replaceVarsE ctx (("Hello").data ++ v.data ++ ("!").data) =
        .ok (("Hello").data ++ v.data ++ ("!").data) := by
      rw [replaceVarsE_eq, hvarsm]
    have hchain : List.Chain' (fun a b => !(isWs a && isWs b))
        (("Hello").data ++ v.data ++ ("!").data) := by
      apply List.Chain'.append
      · apply List.Chain'.append
        · exact chain_of_all_not_ws (by decide)
        · exact chain_of_all_not_ws hvws
        · intro x hx y hy
          have hlast : ("Hello").data.getLast? = some 'o' := rfl
          rw [hlast] at hx
          have hxo : x = 'o' := by
            have := hx
            simp only [Option.mem_def, Option.some_inj] at this
            exact this.symm
          subst hxo
          simp [isWs]
      · exact chain_of_all_not_ws (by decide)
      · intro x hx y hy
        have hhead : ("!").data.head? = some '!' := rfl
        rw [hhead] at hy
        have hyb : y = '!' := by
          have := hy
          simp only [Option.mem_def, Option.some_inj] at this
          exact this.symm
        subst hyb
        simp [isWs]
    have hcoll : collapseWs (("Hello").data ++ v.data ++ ("!").data) =
        ("Hello").data ++ v.data ++ ("!").data :=
      collapseWs_eq_self _ hchain
    have hdata : ("Hello" ++ v ++ "!").data = ("Hello").data ++ v.data ++ ("!").data := by
      rw [String.data_append, String.data_append]
    show (replaceVarsE ctx (processOptSections ctx ("Hello$?$name$?$!").data)).map _ = _
    rw [hopt, hrve]
    show Except.ok (jsTrim (String.mk (collapseWs _))) = _
    rw [hcoll]
    have hmk : String.mk (("Hello").data ++ v.data ++ ("!").data) = "Hello" ++ v ++ "!" := by
      rw [← hdata]
    rw [hmk]
    rw [jsTrim_eq_self]
    · intro c hch
      rw [hdata] at hch
      have h5 : ((("Hello").data ++ v.data) ++ ("!").data).head? = some 'H' := rfl
      rw [show ("Hello").data ++ v.data ++ ("!").data =
        (("Hello").data ++ v.data) ++ ("!").data from rfl, h5] at hch
      have : c = 'H' := by
        simp only [Option.some_inj] at hch
        exact hch.symm
      subst this
      rfl
    · intro c hcl
      rw [hdata] at hcl
      rw [List.getLast?_append_of_ne_nil (("Hello").data ++ v.data)
        (by decide : ("!").data ≠ [])] at hcl
      have : c = '!' := by
        have h6 : ("!").data.getLast? = some '!' := rfl
        rw [h6] at hcl
        simp only [Option.some_inj] at hcl
        exact hcl.symm
      subst this
      rfl
  · intro ctx hm
    show (replaceVarsE ctx (processOptSections ctx ("Hello $name$!").data)).map _ = _
    rw [show processOptSections ctx ("Hello $name$!").data = ("Hello $name$!").data from rfl]
    rw [replaceVarsE_eq]
    rw [show findVarMatch ("Hello $name$!").data =
      some (("Hello ").data, ("name").data, ("!").data) from rfl]
    dsimp only
    rw [show String.mk ("name").data = "name" from rfl]
    rcases hm with hm | hm <;> rw [hm] <;> rfl
  · intro ctx
    rfl

/-- Witness for C6: the four parts at concrete contexts. -/
theorem interpolateCommandTemplate_laws_witness :
    interpolateCommandTemplate "A $?x $miss$ y?$ B" [] = .ok "A B" ∧
    interpolateCommandTemplate "Hello$?$name$?$!" [("name", "World")] =
      .ok ("Hello" ++ "World" ++ "!") ∧
    interpolateCommandTemplate "Hello $name$!" [("name", "")] =
      .error "Required template variable is empty or missing: name" ∧
    interpolateCommandTemplate "  a  b   c  " [] = .ok "a b c" :=
  ⟨interpolateCommandTemplate_laws.1 [] (Or.inl rfl),
    interpolateCommandTemplate_laws.2.1 [("name", "World")] "World" rfl (by decide) (by decide),
    interpolateCommandTemplate_laws.2.2.1 [("name", "")] (Or.inr rfl),
    interpolateCommandTemplate_laws.2.2.2 []⟩

/-- Source-level greedy partition loop: the current group is finalized
exactly when it is non-empty and the next (scaled) size estimate would push
the accumulated estimate above the (scaled) target. -/
def greedySlotsGo (target : Nat) (estOf : LuaSource → Nat) :
    List LuaSource → List LuaSource → Nat → List (List LuaSource)
  | [], cur, _ => [cur]
  | s :: rest, cur, size =>
    if 5 * target < size + estOf s then
      cur :: greedySlotsGo target estOf rest [s] (estOf s)
    else
      greedySlotsGo target estOf rest (cur ++ [s]) (size + estOf s)

/-- Source-level greedy partition of a source list by estimated size. -/
def greedySlots (target : Nat) (estOf : LuaSource → Nat) :
    List LuaSource → List (List LuaSource)
  | [] => []
  | s :: rest => greedySlotsGo target estOf rest [s] (estOf s)

/-- Rendering of one finalized slot: the wrapped bodies joined by blank
lines, prefixed by the merged header (the non-empty stripped first comment
lines of the contributing sources joined by commas) when one exists. -/
def renderSlot (g : List LuaSource) : String :=
  let bodies := g.map fun s => wrapInIIFE s.content s.path
  let descs := (g.map fun s =>
    stripCommentPrefix ((splitLines (extractTopComments s.content)).headD "")).filter (· ≠ "")
  if descs.isEmpty then joinSep "\n\n" bodies
  else ("-- " ++ joinSep ", " descs ++ "\n\n") ++ joinSep "\n\n" bodies

/-- `finalizeSlot` agrees with `renderSlot` on a group and its wrapped
bodies. -/
theorem finalizeSlot_eq_renderSlot (g : List LuaSource) :
    finalizeSlot g (g.map fun s => wrapInIIFE s.content s.path) = renderSlot g := by
  rw [finalizeSlot, buildMergedHeader, renderSlot]
  by_cases hd : ((g.map fun s =>
      stripCommentPrefix ((splitLines (extractTopComments s.content)).headD "")).filter
        (· ≠ "")).isEmpty
  · simp only [hd, if_pos]
  · simp only [hd, if_neg, Bool.false_eq_true, not_false_eq_true, if_false]

/-- The packing loop agrees with the source-level greedy partition. -/
theorem packPriorityGroupLoop_eq_greedy (target : Nat) :
    ∀ (rest cur : List LuaSource) (size : Nat), cur ≠ [] →
      packPriorityGroupLoop target rest (cur.map fun s => wrapInIIFE s.content s.path)
          cur size =
        (greedySlotsGo target (fun s => 7 * utf8Len (wrapInIIFE s.content s.path))
            rest cur size).map renderSlot := by
  intro rest
  induction rest with
  | nil =>
    intro cur size hne
    rw [packPriorityGroupLoop, greedySlotsGo]
    rw [if_neg (by simp [hne])]
    rw [List.map_cons, List.map_nil, finalizeSlot_eq_renderSlot]
  | cons s rest ih =>
    intro cur size hne
    rw [packPriorityGroupLoop, greedySlotsGo]
    by_cases hc : 5 * target < size + 7 * utf8Len (wrapInIIFE s.content s.path)
    · rw [if_pos (by simp [hne, hc]), if_pos hc]
      rw [List.map_cons, finalizeSlot_eq_renderSlot]
      have := ih [s] (7 * utf8Len (wrapInIIFE s.content s.path)) (by simp)
      rw [List.map_singleton] at this
      rw [this]
    · rw [if_neg (by simp [hne, hc]), if_neg hc]
      have := ih (cur ++ [s]) (size + 7 * utf8Len (wrapInIIFE s.content s.path)) (by simp)
      rw [List.map_append, List.map_singleton] at this
      rw [this]

/-- C8: within one priority group, `packPriorityGroup` greedily accumulates
sources into the current slot: each source is wrapped with its
`-- Source: <path>` trace comment and an isolating function block; its
wrapped UTF-8 byte length times the `1.4` Base64 overhead multiplier is the
size estimate (the comparison `estimate > TARGET_SLOT_SIZE` appears below
exactly, scaled by 5: `7·len > 5·target ↔ 1.4·len > target`), and no
encoding is performed while packing; when the current slot is non-empty and
the next estimate would push the total above the target, the slot is
finalized — with a merged header joining the non-empty first comment lines
of its sources by commas, or no header when none exist — and a new slot
starts with that source. -/
theorem packPriorityGroup_greedy (target : Nat) (sources : List LuaSource) :
    packPriorityGroup target sources =
      (greedySlots target (fun s => 7 * utf8Len (wrapInIIFE s.content s.path))
          sources).map renderSlot := by
  rcases sources with _ | ⟨s, rest⟩
  · rfl
  · rw [packPriorityGroup, packPriorityGroupLoop, greedySlots]
    rw [if_neg (by simp)]
    have := packPriorityGroupLoop_eq_greedy target rest [s]
      (0 + 7 * utf8Len (wrapInIIFE s.content s.path)) (by simp)
    rw [List.map_singleton] at this
    simp only [List.nil_append, Nat.zero_add] at this ⊢
    rw [this]

/-- On success, the command loop emits exactly the indexed slot commands and
every one of them is within the command-length limit. -/
theorem buildCommandsLoop_ok (ty : LuaTweakType) :
    ∀ (contents : List String) (k : Nat) (r : List String),
      buildCommandsLoop ty k contents = .ok r →
      r = contents.mapIdx (fun i c => slotCommand ty (k + i) c) ∧
        ∀ cmd ∈ r, cmd.length ≤ MAX_COMMAND_LENGTH := by
  intro contents
  induction contents with
  | nil =>
    intro k r h
    cases h
    simp
  | cons c rest ih =>
    intro k r h
    rw [buildCommandsLoop] at h
    split at h
    · cases h
    · next hle =>
      rcases hrec : buildCommandsLoop ty (k + 1) rest with e | r'
      · rw [hrec] at h; cases h
      · rw [hrec] at h
        cases h
        obtain ⟨hval, hall⟩ := ih (k + 1) r' hrec
        constructor
        · rw [List.mapIdx_cons, Nat.add_zero, hval]
          congr 1
          have : (fun i c => slotCommand ty (k + 1 + i) c) =
              (fun i c => slotCommand ty (k + (i + 1)) c) := by
            funext i c
            congr 1
            omega
          rw [this]
        · intro cmd hcmd
          rcases List.mem_cons.mp hcmd with hcmd | hcmd
          · subst hcmd; omega
          · exact hall cmd hcmd

/-- On failure, some indexed slot command exceeds the command-length
limit. -/
theorem buildCommandsLoop_err (ty : LuaTweakType) :
    ∀ (contents : List String) (k : Nat) (e : String),
      buildCommandsLoop ty k contents = .error e →
      ∃ cmd ∈ contents.mapIdx (fun i c => slotCommand ty (k + i) c),
        MAX_COMMAND_LENGTH < cmd.length := by
  intro contents
  induction contents with
  | nil => intro k e h; cases h
  | cons c rest ih =>
    intro k e h
    rw [buildCommandsLoop] at h
    split at h
    · next hgt =>
      refine ⟨slotCommand ty k c, ?_, ?_⟩
      · rw [List.mapIdx_cons]
        simp
      · simpa using hgt
    · rcases hrec : buildCommandsLoop ty (k + 1) rest with e' | r'
      · obtain ⟨cmd, hmem, hlen⟩ := ih (k + 1) e' hrec
        refine ⟨cmd, ?_, hlen⟩
        rw [List.mapIdx_cons]
        apply List.mem_cons_of_mem
        have : (fun i c => slotCommand ty (k + 1 + i) c) =
            (fun i c => slotCommand ty (k + (i + 1)) c) := by
          funext i c
          congr 1
          omega
        rw [← this]
        exact hmem
      · rw [hrec] at h
        cases h

/-- An oversized indexed slot command makes the command loop fail. -/
theorem buildCommandsLoop_over (ty : LuaTweakType) :
    ∀ (contents : List String) (k : Nat),
      (∃ cmd ∈ contents.mapIdx (fun i c => slotCommand ty (k + i) c),
        MAX_COMMAND_LENGTH < cmd.length) →
      ∃ e, buildCommandsLoop ty k contents = .error e := by
  intro contents
  induction contents with
  | nil =>
    intro k h
    simp at h
  | cons c rest ih =>
    intro k h
    rw [buildCommandsLoop]
    split
    · exact ⟨_, rfl⟩
    · next hle =>
      obtain ⟨cmd, hmem, hlen⟩ := h
      rw [List.mapIdx_cons] at hmem
      rcases List.mem_cons.mp hmem with hmem | hmem
      · exfalso
        subst hmem
        simp only [Nat.add_zero] at hlen
        simp only [not_lt] at hle
        omega
      · have hex : ∃ cmd ∈ rest.mapIdx (fun i c => slotCommand ty (k + 1 + i) c),
            MAX_COMMAND_LENGTH < cmd.length := by
          refine ⟨cmd, ?_, hlen⟩
          have : (fun i c => slotCommand ty (k + 1 + i) c) =
              (fun i c => slotCommand ty (k + (i + 1)) c) := by
            funext i c
            congr 1
            omega
          rw [this]
          exact hmem
        obtain ⟨e, he⟩ := ih (k + 1) hex
        rw [he]
        exact ⟨_, rfl⟩

/-- C3: `packLuaSourcesIntoSlots` fails exactly in two situations: the
packed slot count exceeds `MAX_SLOTS_PER_TYPE` (10), or some generated
`!bset` command exceeds `MAX_COMMAND_LENGTH` (51 000) characters; on
success the commands are exactly `!bset <formatSlotName(type, i)> <encoded>`
for the packed slot contents in order, each slot body Base64-encoded exactly
once. -/
theorem packLuaSourcesIntoSlots_errors_and_shape (target : Nat)
    (sources : List LuaSource) (ty : LuaTweakType) :
    ((∃ e, packLuaSourcesIntoSlots target sources ty = .error e) ↔
      (sources ≠ [] ∧
        (MAX_SLOTS_PER_TYPE < (allSlotContents target sources).length ∨
          ∃ cmd ∈ (allSlotContents target sources).mapIdx
              (fun i c => slotCommand ty i c),
            MAX_COMMAND_LENGTH < cmd.length))) ∧
    (∀ r, packLuaSourcesIntoSlots target sources ty = .ok r →
      r.commands = (allSlotContents target sources).mapIdx
          (fun i c => slotCommand ty i c) ∧
        r.used = r.commands.length ∧ r.total = MAX_SLOTS_PER_TYPE) := by
  have hidx : (fun i (c : String) => slotCommand ty (0 + i) c) =
      (fun i c => slotCommand ty i c) := by
    funext i c
    rw [Nat.zero_add]
  rw [packLuaSourcesIntoSlots]
  by_cases hempty : sources.isEmpty
  · have hnil : sources = [] := List.isEmpty_iff.mp hempty
    subst hnil
    rw [if_pos hempty]
    constructor
    · constructor
      · rintro ⟨e, he⟩
        cases he
      · rintro ⟨hne, _⟩
        exact absurd rfl hne
    · intro r hr
      cases hr
      refine ⟨?_, rfl, rfl⟩
      rfl
  · rw [if_neg hempty]
    have hne : sources ≠ [] := by
      intro h
      subst h
      simp at hempty
    by_cases hcount : MAX_SLOTS_PER_TYPE < (allSlotContents target sources).length
    · rw [if_pos hcount]
      refine ⟨⟨fun _ => ⟨hne, Or.inl hcount⟩, fun _ => ⟨_, rfl⟩⟩, ?_⟩
      intro r hr
      cases hr
    · rw [if_neg hcount]
      rcases hbuild : buildCommandsLoop ty 0 (allSlotContents target sources) with e | cmds
      · obtain ⟨cmd, hmem, hlen⟩ := buildCommandsLoop_err ty _ 0 e hbuild
        rw [hidx] at hmem
        refine ⟨⟨fun _ => ⟨hne, Or.inr ⟨cmd, hmem, hlen⟩⟩, fun _ => ⟨e, rfl⟩⟩, ?_⟩
        intro r hr
        cases hr
      · obtain ⟨hval, hall⟩ := buildCommandsLoop_ok ty _ 0 cmds hbuild
        rw [hidx] at hval
        constructor
        · constructor
          · rintro ⟨e, he⟩
            cases he
          · rintro ⟨_, hor⟩
            rcases hor with hor | ⟨cmd, hmem, hlen⟩
            · exact absurd hor hcount
            · have := hall cmd (by rw [hval]; exact hmem)
              omega
        · intro r hr
          cases hr
          exact ⟨hval, rfl, rfl⟩

/-- Witness for C3: a concrete successful packing, with its command in the
exact `!bset <slotname> <encoded>` shape. -/
theorem packLuaSourcesIntoSlots_errors_and_shape_witness :
    packLuaSourcesIntoSlots 45000
        [{ path := "a.lua", content := "-- A\nx=1", priority := 1 }] .tweakdefs =
      .ok { commands := ["!bset tweakdefs " ++
              encode "-- A\n\n-- Source: a.lua\n(function()\n-- A\nx=1\nend)()"],
            used := 1, total := 10 } ∧
    (SlotPackingResult.mk ["!bset tweakdefs " ++
        encode "-- A\n\n-- Source: a.lua\n(function()\n-- A\nx=1\nend)()"] 1 10).commands =
      (allSlotContents 45000
          [{ path := "a.lua", content := "-- A\nx=1", priority := 1 }]).mapIdx
        (fun i c => slotCommand .tweakdefs i c) ∧
    (SlotPackingResult.mk ["!bset tweakdefs " ++
        encode "-- A\n\n-- Source: a.lua\n(function()\n-- A\nx=1\nend)()"] 1 10).used =
      (SlotPackingResult.mk ["!bset tweakdefs " ++
        encode "-- A\n\n-- Source: a.lua\n(function()\n-- A\nx=1\nend)()"] 1 10).commands.length ∧
    (SlotPackingResult.mk ["!bset tweakdefs " ++
        encode "-- A\n\n-- Source: a.lua\n(function()\n-- A\nx=1\nend)()"] 1 10).total =
      MAX_SLOTS_PER_TYPE :=
  ⟨rfl, (packLuaSourcesIntoSlots_errors_and_shape 45000
    [{ path := "a.lua", content := "-- A\nx=1", priority := 1 }] .tweakdefs).2 _ rfl⟩

/-- Isolation invariant of the `tweakunits` packing loop: starting from a
current group free of plain-table sources, any emitted group containing a
plain-table source is a singleton. -/
theorem packSlotsLoop_tu_isolation (target : Nat) :
    ∀ (rest cur : List LuaSource) (size : Nat),
      (∀ s ∈ cur, isPlainTable s.content = false) →
      ∀ g ∈ packSlotsLoop .tweakunits target rest cur size,
        (∃ s ∈ g, isPlainTable s.content = true) → ∃ s, g = [s] := by
  intro rest
  induction rest with
  | nil =>
    intro cur size hcur g hg hplain
    rw [packSlotsLoop] at hg
    split at hg
    · cases hg
    · rcases List.mem_singleton.mp hg with rfl
      obtain ⟨s, hs, hp⟩ := hplain
      rw [hcur s hs] at hp
      cases hp
  | cons s rest ih =>
    intro cur size hcur g hg hplain
    rw [packSlotsLoop] at hg
    split at hg
    · next hiso =>
      split at hg
      · rcases List.mem_cons.mp hg with rfl | hg
        · exact ⟨s, rfl⟩
        · exact ih [] 0 (by simp) g hg hplain
      · rcases List.mem_cons.mp hg with rfl | hg
        · obtain ⟨t, ht, hp⟩ := hplain
          rw [hcur t ht] at hp
          cases hp
        · rcases List.mem_cons.mp hg with rfl | hg
          · exact ⟨s, rfl⟩
          · exact ih [] 0 (by simp) g hg hplain
    · next hniso =>
      have hsp : isPlainTable s.content = false := by
        rcases hp : isPlainTable s.content
        · rfl
        · rw [hp] at hniso
          simp at hniso
      dsimp only at hg
      split at hg
      · rcases List.mem_cons.mp hg with rfl | hg
        · obtain ⟨t, ht, hp⟩ := hplain
          rw [hcur t ht] at hp
          cases hp
        · refine ih [s] _ ?_ g hg hplain
          intro t ht
          rcases List.mem_singleton.mp ht with rfl
          exact hsp
      · refine ih (cur ++ [s]) _ ?_ g hg hplain
        intro t ht
        rcases List.mem_append.mp ht with ht | ht
        · exact hcur t ht
        · rcases List.mem_singleton.mp ht with rfl
          exact hsp

/-- For `tweakdefs` the packing loop ignores content shape and is the plain
greedy partition loop. -/
theorem packSlotsLoop_defs_eq_greedy (target : Nat) :
    ∀ (rest cur : List LuaSource) (size : Nat), cur ≠ [] →
      packSlotsLoop .tweakdefs target rest cur size =
        greedySlotsGo target (fun s => 7 * utf8Len (wrapInIIFE s.content s.path))
          rest cur size := by
  intro rest
  induction rest with
  | nil =>
    intro cur size hne
    rw [packSlotsLoop, greedySlotsGo]
    rw [if_neg (by simp [hne])]
  | cons s rest ih =>
    intro cur size hne
    rw [packSlotsLoop, greedySlotsGo]
    rw [if_neg (by simp)]
    have hw : wrapSource .tweakdefs s = wrapInIIFE s.content s.path := rfl
    dsimp only
    rw [hw]
    by_cases hc : 5 * target < size + 7 * utf8Len (wrapInIIFE s.content s.path)
    · rw [if_pos (by simp [hne, hc]), if_pos hc]
      rw [ih [s] _ (by simp)]
    · rw [if_neg (by simp [hne, hc]), if_neg hc]
      rw [ih (cur ++ [s]) _ (by simp)]

/-- `packSlots` for `tweakdefs` is the greedy partition, content shape
ignored. -/
theorem packSlots_defs_eq_greedy (target : Nat) (sources : List LuaSource) :
    packSlots .tweakdefs target sources =
      greedySlots target (fun s => 7 * utf8Len (wrapInIIFE s.content s.path)) sources := by
  rcases sources with _ | ⟨s, rest⟩
  · rfl
  · rw [packSlots, packSlotsLoop, greedySlots]
    rw [if_neg (by simp)]
    dsimp only
    rw [show wrapSource .tweakdefs s = wrapInIIFE s.content s.path from rfl]
    rw [if_neg (by simp)]
    rw [packSlotsLoop_defs_eq_greedy target rest ([] ++ [s]) _ (by simp)]
    simp

/-- Plain-table `tweakunits` source of the repository's isolation tests
(`lua/evocom-arm.lua`). -/
def tuPlain1 : LuaSource :=
  { path := "lua/evocom-arm.lua"
    content := "--NuttyB Armada Com\n\x7b\n    armcom = \x7b health = 5000 \x7d\n\x7d"
    priority := 1 }

/-- Plain-table (`return`-prefixed) `tweakunits` source of the tests
(`lua/evocom-cor.lua`). -/
def tuPlain2 : LuaSource :=
  { path := "lua/evocom-cor.lua"
    content := "--NuttyB Cortex Com\nreturn \x7b\n    corcom = \x7b health = 5000 \x7d\n\x7d"
    priority := 1 }

/-- Executable-code `tweakunits` source of the tests
(`lua/lrpc-rebalance.lua`). -/
def tuExec1 : LuaSource :=
  { path := "lua/lrpc-rebalance.lua"
    content := "--NuttyB LRPC\ndo\n    local unitDefs = UnitDefs or \x7b\x7d\n    table.mergeInPlace(unitDefs.armbrtha, \x7b health = 13000 \x7d)\nend"
    priority := 6 }

/-- Executable-code `tweakunits` source of the tests
(`lua/air-rework-t4.lua`). -/
def tuExec2 : LuaSource :=
  { path := "lua/air-rework-t4.lua"
    content := "--NuttyB T4 Air\ndo\n    local unitDefs = UnitDefs or \x7b\x7d\n    table.mergeInPlace(unitDefs.armfepoch, \x7b speed = 100 \x7d)\nend"
    priority := 7 }

/-- Plain-table-shaped `tweakdefs` source of the tests (`lua/defs1.lua`). -/
def tdPlain1 : LuaSource :=
  { path := "lua/defs1.lua"
    content := "--Defs 1\n\x7b\n    somedef = \x7b value = 1 \x7d\n\x7d"
    priority := 1 }

/-- Plain-table-shaped `tweakdefs` source of the tests (`lua/defs2.lua`). -/
def tdPlain2 : LuaSource :=
  { path := "lua/defs2.lua"
    content := "--Defs 2\n\x7b\n    otherdef = \x7b value = 2 \x7d\n\x7d"
    priority := 1 }

/-- When every indexed slot command fits the per-command ceiling, the
structured command builder succeeds with one command per slot group. -/
theorem buildPackCommands_length (ty : LuaTweakType) (maxSlot : Nat) :
    ∀ (groups : List (List LuaSource)) (k : Nat),
      (∀ i g, groups.get? i = some g →
        (slotCommand ty (k + i) (slotContentOf ty g)).length ≤ maxSlot) →
      ∃ cmds, buildPackCommands ty maxSlot k groups = .ok cmds ∧
        cmds.length = groups.length := by
  intro groups
  induction groups with
  | nil => intro k _; exact ⟨[], rfl, rfl⟩
  | cons g rest ih =>
    intro k h
    have h0 : (slotCommand ty k (slotContentOf ty g)).length ≤ maxSlot := by
      have := h 0 g rfl
      simpa using this
    obtain ⟨cmds, hbc, hlen⟩ := ih (k + 1) (fun i g' hg' => by
      have := h (i + 1) g' (by simpa using hg')
      have harith : k + (i + 1) = k + 1 + i := by omega
      rw [harith] at this
      exact this)
    refine ⟨⟨ty.toTweakType, slotCommand ty k (slotContentOf ty g),
      some ⟨k, g.map (·.path), slotContentOf ty g⟩⟩ :: cmds, ?_, ?_⟩
    · rw [buildPackCommands]
      rw [if_neg (by omega)]
      rw [hbc]
      rfl
    · simp [hlen]

/-- C1: in the slot packer, a `tweakunits` source whose content is a bare
table literal never shares a slot with any other source, regardless of
remaining size budget; executable-code `tweakunits` sources may be merged
up to the size budget; for `tweakdefs` the content shape is ignored and the
packing is the plain greedy partition.  In particular (for any target
accommodating the test sources and any per-command ceiling of at least
51 000): two plain-table `tweakunits` sources pack into exactly two slots,
two executable-code `tweakunits` sources into exactly one, one of each into
exactly two, and two plain-table-shaped `tweakdefs` sources into exactly
one. -/
theorem packLuaSources_plainTable_isolation :
    (∀ (target : Nat) (sources : List LuaSource) (g : List LuaSource),
      g ∈ packSlots .tweakunits target sources →
      (∃ s ∈ g, isPlainTable s.content = true) → ∃ s, g = [s]) ∧
    (∀ (target : Nat) (sources : List LuaSource),
      packSlots .tweakdefs target sources =
        greedySlots target (fun s => 7 * utf8Len (wrapInIIFE s.content s.path)) sources) ∧
    (∀ target maxSlot : Nat, 10000 ≤ target → 51000 ≤ maxSlot →
      ((packLuaSources target maxSlot [tuPlain1, tuPlain2] .tweakunits).map (·.used) =
          .ok 2 ∧
        (packLuaSources target maxSlot [tuExec1, tuExec2] .tweakunits).map (·.used) =
          .ok 1 ∧
        (packLuaSources target maxSlot [tuPlain1, tuExec1] .tweakunits).map (·.used) =
          .ok 2 ∧
        (packLuaSources target maxSlot [tdPlain1, tdPlain2] .tweakdefs).map (·.used) =
          .ok 1)) := by
  refine ⟨?_, packSlots_defs_eq_greedy, ?_⟩
  · intro target sources g hg hplain
    exact packSlotsLoop_tu_isolation target sources [] 0 (by simp) g hg hplain
  · intro target maxSlot ht hms
    have hfit1 : ∀ i g, ([[tuPlain1], [tuPlain2]] : List (List LuaSource)).get? i = some g →
        (slotCommand .tweakunits (0 + i) (slotContentOf .tweakunits g)).length ≤ maxSlot := by
      intro i g hg
      match i, hg with
      | 0, hg =>
        cases hg
        have hb : (slotCommand .tweakunits (0 + 0)
            (slotContentOf .tweakunits [tuPlain1])).length ≤ 51000 := by decide
        omega
      | 1, hg =>
        cases hg
        have hb : (slotCommand .tweakunits (0 + 1)
            (slotContentOf .tweakunits [tuPlain2])).length ≤ 51000 := by decide
        omega
    have hps1 : packSlots .tweakunits target [tuPlain1, tuPlain2] =
        [[tuPlain1], [tuPlain2]] := rfl
    have hcase1 : (packLuaSources target maxSlot [tuPlain1, tuPlain2] .tweakunits).map
        (·.used) = .ok 2 := by
      rw [packLuaSources]
      rw [if_neg (by decide)]
      dsimp only
      rw [hps1]
      rw [if_neg (by decide)]
      obtain ⟨cmds, hbc, hlen⟩ := buildPackCommands_length .tweakunits maxSlot
        [[tuPlain1], [tuPlain2]] 0 hfit1
      rw [hbc]
      simp [Except.map, hlen]
    refine ⟨hcase1, ?_, ?_, ?_⟩
    · have hest : 7 * utf8Len (wrapSource .tweakunits tuExec1) +
          7 * utf8Len (wrapSource .tweakunits tuExec2) ≤ 2500 := by decide
      have hps2 : packSlots .tweakunits target [tuExec1, tuExec2] =
          [[tuExec1, tuExec2]] := by
        rw [packSlots, packSlotsLoop]
        rw [if_neg (by decide)]
        dsimp only
        rw [if_neg (by simp)]
        rw [packSlotsLoop]
        rw [if_neg (by decide)]
        dsimp only
        rw [if_neg (by
          simp only [List.nil_append, List.isEmpty_cons, Bool.not_false, Bool.true_and,
            decide_eq_true_eq]
          omega)]
        rw [packSlotsLoop]
        rw [if_neg (by decide)]
        rfl
      have hfit2 : ∀ i g, ([[tuExec1, tuExec2]] : List (List LuaSource)).get? i = some g →
          (slotCommand .tweakunits (0 + i) (slotContentOf .tweakunits g)).length ≤ maxSlot := by
        intro i g hg
        match i, hg with
        | 0, hg =>
          cases hg
          have hb : (slotCommand .tweakunits (0 + 0)
              (slotContentOf .tweakunits [tuExec1, tuExec2])).length ≤ 51000 := by decide
          omega
      rw [packLuaSources]
      rw [if_neg (by decide)]
      dsimp only
      rw [hps2]
      rw [if_neg (by decide)]
      obtain ⟨cmds, hbc, hlen⟩ := buildPackCommands_length .tweakunits maxSlot
        [[tuExec1, tuExec2]] 0 hfit2
      rw [hbc]
      simp [Except.map, hlen]
    · have hfit3 : ∀ i g, ([[tuPlain1], [tuExec1]] : List (List LuaSource)).get? i = some g →
          (slotCommand .tweakunits (0 + i) (slotContentOf .tweakunits g)).length ≤ maxSlot := by
        intro i g hg
        match i, hg with
        | 0, hg =>
          cases hg
          have hb : (slotCommand .tweakunits (0 + 0)
              (slotContentOf .tweakunits [tuPlain1])).length ≤ 51000 := by decide
          omega
        | 1, hg =>
          cases hg
          have hb : (slotCommand .tweakunits (0 + 1)
              (slotContentOf .tweakunits [tuExec1])).length ≤ 51000 := by decide
          omega
      have hps3 : packSlots .tweakunits target [tuPlain1, tuExec1] =
          [[tuPlain1], [tuExec1]] := rfl
      rw [packLuaSources]
      rw [if_neg (by decide)]
      dsimp only
      rw [hps3]
      rw [if_neg (by decide)]
      obtain ⟨cmds, hbc, hlen⟩ := buildPackCommands_length .tweakunits maxSlot
        [[tuPlain1], [tuExec1]] 0 hfit3
      rw [hbc]
      simp [Except.map, hlen]
    · have hestd : 7 * utf8Len (wrapSource .tweakdefs tdPlain1) +
          7 * utf8Len (wrapSource .tweakdefs tdPlain2) ≤ 2500 := by decide
      have hps4 : packSlots .tweakdefs target [tdPlain1, tdPlain2] =
          [[tdPlain1, tdPlain2]] := by
        rw [packSlots, packSlotsLoop]
        rw [if_neg (by decide)]
        dsimp only
        rw [if_neg (by simp)]
        rw [packSlotsLoop]
        rw [if_neg (by decide)]
        dsimp only
        rw [if_neg (by
          simp only [List.nil_append, List.isEmpty_cons, Bool.not_false, Bool.true_and,
            decide_eq_true_eq]
          omega)]
        rw [packSlotsLoop]
        rw [if_neg (by decide)]
        rfl
      have hfit4 : ∀ i g, ([[tdPlain1, tdPlain2]] : List (List LuaSource)).get? i = some g →
          (slotCommand .tweakdefs (0 + i) (slotContentOf .tweakdefs g)).length ≤ maxSlot := by
        intro i g hg
        match i, hg with
        | 0, hg =>
          cases hg
          have hb : (slotCommand .tweakdefs (0 + 0)
              (slotContentOf .tweakdefs [tdPlain1, tdPlain2])).length ≤ 51000 := by decide
          omega
      rw [packLuaSources]
      rw [if_neg (by decide)]
      dsimp only
      rw [hps4]
      rw [if_neg (by decide)]
      obtain ⟨cmds, hbc, hlen⟩ := buildPackCommands_length .tweakdefs maxSlot
        [[tdPlain1, tdPlain2]] 0 hfit4
      rw [hbc]
      simp [Except.map, hlen]

/-- Witness for C1: the four packing cases at concrete budget values. -/
theorem packLuaSources_plainTable_isolation_witness :
    (packLuaSources 45000 51000 [tuPlain1, tuPlain2] .tweakunits).map (·.used) = .ok 2 ∧
    (packLuaSources 45000 51000 [tuExec1, tuExec2] .tweakunits).map (·.used) = .ok 1 ∧
    (packLuaSources 45000 51000 [tuPlain1, tuExec1] .tweakunits).map (·.used) = .ok 2 ∧
    (packLuaSources 45000 51000 [tdPlain1, tdPlain2] .tweakdefs).map (·.used) = .ok 1 :=
  packLuaSources_plainTable_isolation.2.2 45000 51000 (by decide) (by decide)

/-- Membership in `insertBy`. -/
theorem insertBy_mem {le : α → α → Bool} {x y : α} :
    ∀ l : List α, x ∈ insertBy le y l → x = y ∨ x ∈ l := by
  intro l
  induction l with
  | nil =>
    intro h
    rw [insertBy] at h
    rcases List.mem_singleton.mp h with rfl
    exact Or.inl rfl
  | cons z zs ih =>
    intro h
    rw [insertBy] at h
    split at h
    · rcases List.mem_cons.mp h with rfl | h
      · exact Or.inr (by simp)
      · rcases ih h with h | h
        · exact Or.inl h
        · exact Or.inr (by simp [h])
    · rcases List.mem_cons.mp h with rfl | h
      · exact Or.inl rfl
      · exact Or.inr h

/-- Membership in `stableSortBy` comes from the input list. -/
theorem stableSortBy_mem {le : α → α → Bool} {x : α} :
    ∀ l : List α, x ∈ stableSortBy le l → x ∈ l := by
  suffices h : ∀ (l acc : List α),
      x ∈ l.foldl (fun acc x => insertBy le x acc) acc → x ∈ l ∨ x ∈ acc by
    intro l hx
    rcases h l [] hx with hx | hx
    · exact hx
    · cases hx
  intro l
  induction l with
  | nil => intro acc h; exact Or.inr h
  | cons y ys ih =>
    intro acc h
    rw [List.foldl_cons] at h
    rcases ih (insertBy le y acc) h with h | h
    · exact Or.inl (by simp [h])
    · rcases insertBy_mem acc h with rfl | h
      · exact Or.inl (by simp)
      · exact Or.inr h

/-- `insertBy` preserves pairwise sortedness for a total, transitive
comparator. -/
theorem insertBy_pairwise {le : α → α → Bool}
    (htotal : ∀ a b, le a b = true ∨ le b a = true)
    (htrans : ∀ a b c, le a b = true → le b c = true → le a c = true) (x : α) :
    ∀ l : List α, l.Pairwise (fun a b => le a b = true) →
      (insertBy le x l).Pairwise (fun a b => le a b = true) := by
  intro l
  induction l with
  | nil => intro _; simp [insertBy]
  | cons y ys ih =>
    intro hp
    rw [List.pairwise_cons] at hp
    obtain ⟨hy, hys⟩ := hp
    rw [insertBy]
    split
    · next hle =>
      rw [List.pairwise_cons]
      refine ⟨?_, ih hys⟩
      intro z hz
      rcases insertBy_mem ys hz with rfl | hz
      · exact hle
      · exact hy z hz
    · next hnle =>
      rw [List.pairwise_cons]
      have hxy : le x y = true := by
        rcases htotal x y with h | h
        · exact h
        · exact absurd h hnle
      refine ⟨?_, List.pairwise_cons.mpr ⟨hy, hys⟩⟩
      intro z hz
      rcases List.mem_cons.mp hz with rfl | hz
      · exact hxy
      · exact htrans x y z hxy (hy z hz)

/-- `stableSortBy` sorts pairwise for a total, transitive comparator. -/
theorem stableSortBy_pairwise {le : α → α → Bool}
    (htotal : ∀ a b, le a b = true ∨ le b a = true)
    (htrans : ∀ a b c, le a b = true → le b c = true → le a c = true) :
    ∀ l : List α, (stableSortBy le l).Pairwise (fun a b => le a b = true) := by
  suffices h : ∀ (l acc : List α), acc.Pairwise (fun a b => le a b = true) →
      (l.foldl (fun acc x => insertBy le x acc) acc).Pairwise
        (fun a b => le a b = true) by
    intro l
    exact h l [] (by simp)
  intro l
  induction l with
  | nil => intro acc h; exact h
  | cons y ys ih =>
    intro acc h
    rw [List.foldl_cons]
    exact ih (insertBy le y acc) (insertBy_pairwise htotal htrans y acc h)

/-- The packing loop partitions the input without reordering: joining the
emitted groups recovers the current group followed by the remaining
sources. -/
theorem packSlotsLoop_join (ty : LuaTweakType) (target : Nat) :
    ∀ (rest cur : List LuaSource) (size : Nat),
      (packSlotsLoop ty target rest cur size).join = cur ++ rest := by
  intro rest
  induction rest with
  | nil =>
    intro cur size
    rw [packSlotsLoop]
    split
    · next hcur =>
      rw [List.isEmpty_iff.mp hcur]
      rfl
    · simp
  | cons s rest ih =>
    intro cur size
    rw [packSlotsLoop]
    split
    · split
      · next hcur =>
        rw [List.isEmpty_iff.mp hcur]
        simp [ih]
      · simp [ih]
    · dsimp only
      split
      · simp [ih]
      · rw [ih]
        simp

/-- Joining the slot partition recovers the source list in order. -/
theorem packSlots_join (ty : LuaTweakType) (target : Nat) (sources : List LuaSource) :
    (packSlots ty target sources).join = sources := by
  rw [packSlots, packSlotsLoop_join]
  rfl

/-- On success, the structured packer's per-command source lists are the
path lists of the slot partition's groups, in order. -/
theorem buildPackCommands_sources (ty : LuaTweakType) (maxSlot : Nat) :
    ∀ (groups : List (List LuaSource)) (k : Nat) (cmds : List Command),
      buildPackCommands ty maxSlot k groups = .ok cmds →
      cmds.map (fun c => ((c.slot.map (·.sources)).getD [])) =
        groups.map (·.map (·.path)) := by
  intro groups
  induction groups with
  | nil =>
    intro k cmds h
    cases h
    rfl
  | cons g rest ih =>
    intro k cmds h
    rw [buildPackCommands] at h
    split at h
    · cases h
    · rcases hrec : buildPackCommands ty maxSlot (k + 1) rest with e | cmds'
      · rw [hrec] at h; cases h
      · rw [hrec] at h
        cases h
        rw [List.map_cons, ih (k + 1) cmds' hrec]
        rfl

/-- C4: for every tweak type, the contributing source paths read in
slot-command order are non-decreasing in looked-up priority:
`generateCommands` sorts resolved sources ascending by priority
(`sortLua`), the packer packs the pre-sorted list without reordering, and
the priority of a path is looked up after stripping a leading `~` and a
trailing `{...}` suffix, with the default priority for unknown paths. -/
theorem packedSources_priority_monotone :
    (∀ p v : String, '{' ∉ p.data → '}' ∉ p.data → '}' ∉ v.data →
      cleanLuaPath ("~" ++ p ++ "\x7b" ++ v ++ "\x7d") = p) ∧
    (∀ p : String, p.data.getLast? ≠ some '}' → cleanLuaPath ("~" ++ p) = p) ∧
    (∀ (prios : List (String × Nat)) (d : Nat) (path : String),
      List.find? (·.1 = cleanLuaPath path) prios = none →
      getLuaPriority prios d path = d) ∧
    (∀ (prios : List (String × Nat)) (d target maxSlot : Nat)
        (fileMap : List (String × String)) (paths : List String)
        (ty : LuaTweakType) (r : PackResult),
      packLuaSources target maxSlot
          (sortLua (resolveLuaSources prios d fileMap paths)) ty = .ok r →
      List.Chain' (fun a b : Nat => a ≤ b)
        (((r.commands.map fun c => (c.slot.map (·.sources)).getD []).join).map
          (getLuaPriority prios d))) := by
  have hstripT : ∀ p : String, stripTilde ("~" ++ p) = p := by
    intro p
    have hd : ("~" ++ p).data = '~' :: p.data := by
      rw [String.data_append]
      rfl
    rw [stripTilde, hd]
    rfl
  refine ⟨?_, ?_, ?_, ?_⟩
  · intro p v hbp hcp hcv
    have hassoc : "~" ++ p ++ "\x7b" ++ v ++ "\x7d" = "~" ++ (p ++ "\x7b" ++ v ++ "\x7d") := by
      simp [String.append_assoc]
    rw [cleanLuaPath, hassoc, hstripT]
    have hd : (p ++ "\x7b" ++ v ++ "\x7d").data = (p.data ++ '{' :: v.data) ++ ['}'] := by
      rw [String.data_append, String.data_append, String.data_append]
      simp
    have hsb : ∀ (pd : List Char), '{' ∉ pd → '}' ∉ pd →
        stripBraceBody (pd ++ '{' :: v.data) = some pd := by
      intro pd
      induction pd with
      | nil =>
        intro _ _
        rw [List.nil_append, stripBraceBody]
        rw [if_pos (by simpa using hcv)]
      | cons c cs ih =>
        intro hb hc
        rw [List.cons_append, stripBraceBody]
        rw [if_neg]
        · rw [ih (fun h => hb (by simp [h])) (fun h => hc (by simp [h]))]
          rfl
        · have hcne : c ≠ '{' := fun h => hb (by simp [h])
          simp [hcne]
    rw [stripBraceSuffix, hd]
    rw [List.getLast?_append_of_ne_nil _ (by simp)]
    rw [show (['}'] : List Char).getLast? = some '}' from rfl]
    rw [List.dropLast_concat]
    rw [hsb p.data hbp hcp]
    rfl
  · intro p hlast
    rw [cleanLuaPath, hstripT, stripBraceSuffix]
    split
    · next heq => exact absurd heq hlast
    · rfl
  · intro prios d path hfind
    rw [getLuaPriority, hfind]
    rfl
  · intro prios d target maxSlot fileMap paths ty r hr
    rw [packLuaSources] at hr
    split at hr
    · cases hr
      simp
    · dsimp only at hr
      split at hr
      · cases hr
      · rcases hbc : buildPackCommands ty maxSlot 0
            (packSlots ty target (sortLua (resolveLuaSources prios d fileMap paths))) with e | cmds
        · rw [hbc] at hr
          cases hr
        · rw [hbc] at hr
          cases hr
          dsimp only
          rw [buildPackCommands_sources ty maxSlot _ 0 cmds hbc]
          rw [show ((packSlots ty target (sortLua (resolveLuaSources prios d fileMap paths))).map
              (·.map (·.path))).join =
            ((packSlots ty target (sortLua (resolveLuaSources prios d fileMap paths))).join).map
              (·.path) from (List.map_flatten _ _).symm]
          rw [packSlots_join]
          rw [List.map_map]
          have hmapeq : (sortLua (resolveLuaSources prios d fileMap paths)).map
              (getLuaPriority prios d ∘ LuaSource.path) =
            (sortLua (resolveLuaSources prios d fileMap paths)).map (·.priority) := by
            apply List.map_congr_left
            intro s hs
            have hmem : s ∈ resolveLuaSources prios d fileMap paths :=
              stableSortBy_mem _ hs
            rw [resolveLuaSources] at hmem
            obtain ⟨p, _, rfl⟩ := List.mem_map.mp hmem
            rfl
          rw [hmapeq]
          have hpw := @stableSortBy_pairwise _
            (fun a b : LuaSource => decide (a.priority ≤ b.priority))
            (fun a b => by
              rcases Nat.le_total a.priority b.priority with h | h
              · exact Or.inl (by simpa using h)
              · exact Or.inr (by simpa using h))
            (fun a b c hab hbc => by
              simp only [decide_eq_true_eq] at hab hbc ⊢
              omega)
            (resolveLuaSources prios d fileMap paths)
          have hchain : List.Chain' (fun a b : LuaSource => a.priority ≤ b.priority)
              (sortLua (resolveLuaSources prios d fileMap paths)) := by
            apply List.Pairwise.chain'
            exact List.Pairwise.imp (fun hab => by simpa using hab) hpw
          exact List.chain'_map_of_chain' (fun x : LuaSource => x.priority)
            (fun a b h => h) hchain

/-- Priority table of the C4 witness. -/
def c4Prios : List (String × Nat) := [("a.lua", 3), ("b.lua", 1)]

/-- Bundle of the C4 witness. -/
def c4Files : List (String × String) := [("a.lua", "x=1"), ("b.lua", "y=2")]

/-- Paths of the C4 witness. -/
def c4Paths : List String := ["~a.lua", "~b.lua"]

/-- Expected packing result of the C4 witness. -/
def c4Result : PackResult :=
  { commands :=
      [{ type := .tweakdefs,
         command := slotCommand .tweakdefs 0
           "-- Source: ~b.lua\n(function()\ny=2\nend)()\n\n-- Source: ~a.lua\n(function()\nx=1\nend)()",
         slot := some
           { index := 0,
             sources := ["~b.lua", "~a.lua"],
             content := "-- Source: ~b.lua\n(function()\ny=2\nend)()\n\n-- Source: ~a.lua\n(function()\nx=1\nend)()" } }],
    used := 1,
    total := 10 }

/-- Witness for C4: concrete path cleaning, default fallback, and a
concrete packing whose recovered priorities are non-decreasing. -/
theorem packedSources_priority_monotone_witness :
    cleanLuaPath "~lua/raptor-hp\x7b1.5\x7d" = "lua/raptor-hp" ∧
    cleanLuaPath "~lua/main-defs.lua" = "lua/main-defs.lua" ∧
    getLuaPriority [("lua/a.lua", 3)] 5 "lua/unknown.lua" = 5 ∧
    packLuaSources 45000 51000 (sortLua (resolveLuaSources c4Prios 5 c4Files c4Paths))
        .tweakdefs = .ok c4Result ∧
    List.Chain' (fun a b : Nat => a ≤ b)
      (((c4Result.commands.map fun c => (c.slot.map (·.sources)).getD []).join).map
        (getLuaPriority c4Prios 5)) :=
  ⟨packedSources_priority_monotone.1 "lua/raptor-hp" "1.5" (by decide) (by decide) (by decide),
    packedSources_priority_monotone.2.1 "lua/main-defs.lua" (by decide),
    packedSources_priority_monotone.2.2.1 [("lua/a.lua", 3)] 5 "lua/unknown.lua" rfl,
    rfl,
    packedSources_priority_monotone.2.2.2 c4Prios 5 45000 51000 c4Files c4Paths
      .tweakdefs c4Result rfl⟩

/-- Decomposition of a successful `find?`: everything before the hit
falsifies the predicate. -/
theorem find?_decomp {p : Nat → Bool} :
    ∀ (l : List Nat) (i : Nat), l.find? p = some i →
      ∃ pre post, l = pre ++ i :: post ∧ (∀ j ∈ pre, p j = false) ∧ p i = true := by
  intro l
  induction l with
  | nil => intro i h; cases h
  | cons x xs ih =>
    intro i h
    rw [List.find?_cons] at h
    split at h
    · next hx =>
      cases h
      exact ⟨[], xs, rfl, by simp, hx⟩
    · next hx =>
      obtain ⟨pre, post, hl, hpre, hp⟩ := ih i h
      refine ⟨x :: pre, post, by rw [hl]; rfl, ?_, hp⟩
      intro j hj
      rcases List.mem_cons.mp hj with rfl | hj
      · simpa using hx
      · exact hpre j hj

/-- `findFreeSlot` returns exactly the lowest index in 1–9 that is not
used; it returns `none` exactly when all of 1–9 are used. -/
theorem findFreeSlot_spec (used : List Nat) :
    (∀ i, findFreeSlot used = some i →
      1 ≤ i ∧ i ≤ 9 ∧ i ∉ used ∧ ∀ j, 1 ≤ j → j < i → j ∈ used) ∧
    (findFreeSlot used = none → ∀ i, 1 ≤ i → i ≤ 9 → i ∈ used) := by
  constructor
  · intro i h
    obtain ⟨pre, post, hl, hpre, hp⟩ := find?_decomp _ i h
    have hmem : i ∈ List.range' 1 9 := by
      rw [hl]
      simp
    have hrange := List.mem_range'_1.mp hmem
    refine ⟨by omega, by omega, ?_, ?_⟩
    · intro hin
      simp only [Bool.not_eq_true'] at hp
      exact (by simpa using hp : i ∉ used) hin
    · intro j h1 hji
      have hjmem : j ∈ List.range' 1 9 := List.mem_range'_1.mpr ⟨h1, by omega⟩
      rw [hl] at hjmem
      rcases List.mem_append.mp hjmem with hj | hj
      · have := hpre j hj
        simpa using this
      · rcases List.mem_cons.mp hj with rfl | hj
        · omega
        · exfalso
          have hpw : List.Pairwise (· < ·) (List.range' 1 9) := by decide
          rw [hl] at hpw
          have := (List.pairwise_append.mp hpw).2.2
          have h2 := (List.pairwise_cons.mp (List.pairwise_append.mp hpw).2.1).1 j hj
          omega
  · intro h i h1 h9
    by_contra hnin
    have : (List.range' 1 9).find? (fun i => !used.contains i) = none := h
    have hall := List.find?_eq_none.mp this
    have hmem : i ∈ List.range' 1 9 := List.mem_range'_1.mpr ⟨h1, by omega⟩
    have := hall i hmem
    simp only [Bool.not_eq_true', Bool.not_eq_false] at this
    exact hnin (by simpa using this)

/-- Used-slot state after a prefix of allocations has been performed. -/
def usedAfter (used : UsedSlots) (pre : List CustomTweakAllocation) : UsedSlots :=
  pre.foldl (fun u a => u.add a.tweak.type a.slotIndex) used

/-- Every allocation performed by the loop takes the lowest slot index that
is free at its point — counting the initial used set and the indices of
earlier allocations of the same type, but not those of dropped tweaks — and
its command has the exact `!bset` shape and fits the ceiling. -/
theorem allocLoop_minimal (maxSlot : Nat) :
    ∀ (tweaks : List EnabledCustomTweak) (used : UsedSlots)
      (pre post : List CustomTweakAllocation) (a : CustomTweakAllocation),
      (allocLoop maxSlot tweaks used).1 = pre ++ a :: post →
      findFreeSlot ((usedAfter used pre).get a.tweak.type) = some a.slotIndex ∧
      a.command = "!bset " ++ formatSlotName a.tweak.type a.slotIndex ++ " " ++
        a.tweak.code ∧
      a.command.length ≤ maxSlot := by
  intro tweaks
  induction tweaks with
  | nil =>
    intro used pre post a h
    rw [allocLoop] at h
    simp at h
  | cons t rest ih =>
    intro used pre post a h
    rw [allocLoop] at h
    rcases hfs : findFreeSlot (used.get t.type) with _ | slot
    · rw [hfs] at h
      rcases hres : allocLoop maxSlot rest used with ⟨as', ds', ad', au'⟩
      rw [hres] at h
      exact ih used pre post a (by rw [hres]; exact h)
    · rw [hfs] at h
      dsimp only at h
      split at h
      · rcases hres : allocLoop maxSlot rest used with ⟨as', ds', ad', au'⟩
        rw [hres] at h
        exact ih used pre post a (by rw [hres]; exact h)
      · next hfit =>
        rcases hres : allocLoop maxSlot rest (used.add t.type slot)
          with ⟨as', ds', ad', au'⟩
        rw [hres] at h
        dsimp only at h
        rcases pre with _ | ⟨p, pre'⟩
        · rw [List.nil_append] at h
          rcases List.cons_eq_cons.mp h with ⟨ha, _⟩
          subst ha
          refine ⟨hfs, rfl, ?_⟩
          simp only [not_lt] at hfit
          exact hfit
        · rw [List.cons_append] at h
          rcases List.cons_eq_cons.mp h with ⟨hp, hrest⟩
          subst hp
          exact ih (used.add t.type slot) pre' post a (by rw [hres]; exact hrest)
/-- The allocation loop partitions the tweak list: allocated tweaks and
dropped tweaks are complementary subsequences, and every tweak lands in one
of the two. -/
theorem allocLoop_partition (maxSlot : Nat) :
    ∀ (tweaks : List EnabledCustomTweak) (used : UsedSlots),
      ((allocLoop maxSlot tweaks used).1.map (·.tweak)).Sublist tweaks ∧
      (allocLoop maxSlot tweaks used).2.1.Sublist tweaks ∧
      (allocLoop maxSlot tweaks used).1.length +
        (allocLoop maxSlot tweaks used).2.1.length = tweaks.length := by
  intro tweaks
  induction tweaks with
  | nil =>
    intro used
    rw [allocLoop]
    refine ⟨by simp, by simp, rfl⟩
  | cons t rest ih =>
    intro used
    rw [allocLoop]
    rcases hfs : findFreeSlot (used.get t.type) with _ | slot
    · rcases hres : allocLoop maxSlot rest used with ⟨as', ds', ad', au'⟩
      obtain ⟨h1, h2, h3⟩ := ih used
      rw [hres] at h1 h2 h3
      dsimp only at h1 h2 h3 ⊢
      exact ⟨h1.cons _, h2.cons₂ _, by simp only [List.length_cons]; omega⟩
    · dsimp only
      split
      · rcases hres : allocLoop maxSlot rest used with ⟨as', ds', ad', au'⟩
        obtain ⟨h1, h2, h3⟩ := ih used
        rw [hres] at h1 h2 h3
        dsimp only at h1 h2 h3 ⊢
        exact ⟨h1.cons _, h2.cons₂ _, by simp only [List.length_cons]; omega⟩
      · rcases hres : allocLoop maxSlot rest (used.add t.type slot) with ⟨as', ds', ad', au'⟩
        obtain ⟨h1, h2, h3⟩ := ih (used.add t.type slot)
        rw [hres] at h1 h2 h3
        dsimp only at h1 h2 h3 ⊢
        exact ⟨h1.cons₂ _, h2.cons _, by simp only [List.length_cons, List.map_cons]; omega⟩

/-- Flattening the chunks of a successful `groupIntoChunks` run recovers
the command list. -/
theorem groupIntoChunksLoop_join (maxChunk maxSlot : Nat) :
    ∀ (cmds current : List Command) (size : Nat) (chunks : List (List Command)),
      groupIntoChunksLoop maxChunk maxSlot cmds current size = .ok chunks →
      chunks.join = current ++ cmds := by
  intro cmds
  induction cmds with
  | nil =>
    intro current size chunks h
    rw [groupIntoChunksLoop] at h
    cases h
    split
    · next hcur =>
      rw [List.isEmpty_iff.mp hcur]
      rfl
    · simp
  | cons cmd rest ih =>
    intro current size chunks h
    rw [groupIntoChunksLoop] at h
    split at h
    · cases h
    · dsimp only at h
      split at h <;> split at h
      · rcases hrec : groupIntoChunksLoop maxChunk maxSlot rest [cmd]
            cmd.command.length with e | chunks'
        · rw [hrec] at h
          cases h
        · rw [hrec] at h
          cases h
          have hj := ih [cmd] cmd.command.length chunks' hrec
          simp [hj]
      · rw [ih (current ++ [cmd]) _ chunks h]
        simp
      · rcases hrec : groupIntoChunksLoop maxChunk maxSlot rest [cmd]
            cmd.command.length with e | chunks'
        · rw [hrec] at h
          cases h
        · rw [hrec] at h
          cases h
          have hj := ih [cmd] cmd.command.length chunks' hrec
          simp [hj]
      · rw [ih (current ++ [cmd]) _ chunks h]
        simp

/-- `groupIntoChunksLoop` succeeds exactly when every remaining command is
within the per-command ceiling. -/
theorem groupIntoChunksLoop_ok_iff (maxChunk maxSlot : Nat) :
    ∀ (cmds current : List Command) (size : Nat),
      (∃ chunks, groupIntoChunksLoop maxChunk maxSlot cmds current size = .ok chunks) ↔
        ∀ c ∈ cmds, c.command.length ≤ maxSlot := by
  intro cmds
  induction cmds with
  | nil =>
    intro current size
    constructor
    · intro _ c hc
      cases hc
    · intro _
      exact ⟨_, rfl⟩
  | cons cmd rest ih =>
    intro current size
    constructor
    · rintro ⟨chunks, h⟩
      rw [groupIntoChunksLoop] at h
      split at h
      · cases h
      · next hle =>
        intro c hc
        rcases List.mem_cons.mp hc with rfl | hc
        · omega
        · dsimp only at h
          split at h <;> split at h
          · rcases hrec : groupIntoChunksLoop maxChunk maxSlot rest [cmd]
                cmd.command.length with e | chunks'
            · rw [hrec] at h
              cases h
            · exact (ih [cmd] cmd.command.length).mp ⟨chunks', hrec⟩ c hc
          · exact (ih (current ++ [cmd]) _).mp ⟨chunks, h⟩ c hc
          · rcases hrec : groupIntoChunksLoop maxChunk maxSlot rest [cmd]
                cmd.command.length with e | chunks'
            · rw [hrec] at h
              cases h
            · exact (ih [cmd] cmd.command.length).mp ⟨chunks', hrec⟩ c hc
          · exact (ih (current ++ [cmd]) _).mp ⟨chunks, h⟩ c hc
    · intro hall
      rw [groupIntoChunksLoop]
      rw [if_neg (by have := hall cmd (by simp); omega)]
      dsimp only
      split <;> split
      · obtain ⟨chunks', hrec⟩ := (ih [cmd] cmd.command.length).mpr
          (fun c hc => hall c (by simp [hc]))
        rw [hrec]
        exact ⟨_, rfl⟩
      · exact (ih (current ++ [cmd]) _).mpr (fun c hc => hall c (by simp [hc]))
      · obtain ⟨chunks', hrec⟩ := (ih [cmd] cmd.command.length).mpr
          (fun c hc => hall c (by simp [hc]))
        rw [hrec]
        exact ⟨_, rfl⟩
      · exact (ih (current ++ [cmd]) _).mpr (fun c hc => hall c (by simp [hc]))

/-- Success of `buildCustomCommands` relates allocations and commands
pointwise. -/
theorem buildCustomCommands_forall₂ :
    ∀ (allocs : List CustomTweakAllocation) (out : List Command),
      buildCustomCommands allocs = .ok out →
      List.Forall₂ (fun a c => buildCustomCommand a = .ok c) allocs out := by
  intro allocs
  induction allocs with
  | nil =>
    intro out h
    cases h
    exact List.Forall₂.nil
  | cons a rest ih =>
    intro out h
    rw [buildCustomCommands] at h
    rcases hc : buildCustomCommand a with e | c
    · rw [hc] at h
      simp only [Except.bind, bind] at h
      cases h
    · rw [hc] at h
      simp only [Except.bind, bind] at h
      rcases hcs : buildCustomCommands rest with e | cs
      · rw [hcs] at h
        simp only at h
        cases h
      · rw [hcs] at h
        simp only [pure, Except.pure] at h
        cases h
        exact List.Forall₂.cons hc (ih cs hcs)

/-- Every command produced by `buildCustomCommands` carries the command
string of one of the allocations. -/
theorem buildCustomCommands_cmds :
    ∀ (allocs : List CustomTweakAllocation) (out : List Command),
      buildCustomCommands allocs = .ok out →
      ∀ c ∈ out, ∃ a ∈ allocs, c.command = a.command := by
  intro allocs
  induction allocs with
  | nil =>
    intro out h c hc
    cases h
    cases hc
  | cons a rest ih =>
    intro out h c hc
    rw [buildCustomCommands] at h
    rcases hca : buildCustomCommand a with e | c0
    · rw [hca] at h
      simp only [Except.bind, bind] at h
      cases h
    · rw [hca] at h
      simp only [Except.bind, bind] at h
      rcases hcs : buildCustomCommands rest with e | cs
      · rw [hcs] at h
        simp only at h
        cases h
      · rw [hcs] at h
        simp only [pure, Except.pure] at h
        cases h
        rcases List.mem_cons.mp hc with rfl | hc
        · refine ⟨a, by simp, ?_⟩
          rw [buildCustomCommand] at hca
          split at hca
          · cases hca
          · cases hca
            rfl
        · obtain ⟨a', ha', hcmd⟩ := ih cs hcs c hc
          exact ⟨a', by simp [ha'], hcmd⟩

/-- Success decomposition of `generateCommands`: every pipeline stage
succeeded, the result records the allocator's drops and slot usage, and
the flattened chunks are exactly the sorted plain commands followed by
the tweakdefs slots, the tweakunits slots and the custom commands. -/
theorem generateCommands_ok
    (prios : List (String × Nat)) (defaultPrio target maxChunk maxSlot : Nat)
    (mapped : MappedData) (ctx : TemplateContext)
    (luaFiles : List (String × String))
    (customTweaks : Option (List EnabledCustomTweak)) (r : PackingResult)
    (h : generateCommands prios defaultPrio target maxChunk maxSlot mapped ctx
      luaFiles customTweaks = .ok r) :
    ∃ interp defsR unitsR custom,
      interpolateCommands mapped.commands ctx = .ok interp ∧
      packLuaSources target maxSlot
        (sortLua (resolveLuaSources prios defaultPrio luaFiles mapped.tweakdefs))
        .tweakdefs = .ok defsR ∧
      packLuaSources target maxSlot
        (sortLua (resolveLuaSources prios defaultPrio luaFiles mapped.tweakunits))
        .tweakunits = .ok unitsR ∧
      buildCustomCommands
        (allocateCustomTweaks maxSlot
          (defsR.commands.map (·.command) ++ unitsR.commands.map (·.command))
          (customTweaks.map (·.filter (·.enabled)))).allocations = .ok custom ∧
      r.droppedCustomTweaks =
        (allocateCustomTweaks maxSlot
          (defsR.commands.map (·.command) ++ unitsR.commands.map (·.command))
          (customTweaks.map (·.filter (·.enabled)))).dropped ∧
      r.slotUsageDefs = defsR.used +
        (allocateCustomTweaks maxSlot
          (defsR.commands.map (·.command) ++ unitsR.commands.map (·.command))
          (customTweaks.map (·.filter (·.enabled)))).allocatedDefs ∧
      r.slotUsageUnits = unitsR.used +
        (allocateCustomTweaks maxSlot
          (defsR.commands.map (·.command) ++ unitsR.commands.map (·.command))
          (customTweaks.map (·.filter (·.enabled)))).allocatedUnits ∧
      groupIntoChunks maxChunk maxSlot
        ((stableSortBy presetLe interp).map
          (fun cmd => { type := TweakType.command, command := cmd, slot := none }) ++
          defsR.commands ++ unitsR.commands ++ custom) = .ok r.chunks ∧
      r.chunks.join =
        (stableSortBy presetLe interp).map
          (fun cmd => { type := TweakType.command, command := cmd, slot := none }) ++
          defsR.commands ++ unitsR.commands ++ custom := by
  rw [generateCommands] at h
  rcases hi : interpolateCommands mapped.commands ctx with e | interp
  · rw [hi] at h
    simp only [Except.bind, bind] at h
    cases h
  · rw [hi] at h
    simp only [Except.bind, bind] at h
    rcases hd : packLuaSources target maxSlot
        (sortLua (resolveLuaSources prios defaultPrio luaFiles mapped.tweakdefs))
        .tweakdefs with e | defsR
    · rw [hd] at h
      simp only at h
      cases h
    · rw [hd] at h
      simp only at h
      rcases hu : packLuaSources target maxSlot
          (sortLua (resolveLuaSources prios defaultPrio luaFiles mapped.tweakunits))
          .tweakunits with e | unitsR
      · rw [hu] at h
        simp only at h
        cases h
      · rw [hu] at h
        simp only at h
        rcases hc : buildCustomCommands
            (allocateCustomTweaks maxSlot
              (defsR.commands.map (·.command) ++ unitsR.commands.map (·.command))
              (customTweaks.map (·.filter (·.enabled)))).allocations with e | custom
        · rw [hc] at h
          simp only at h
          cases h
        · rw [hc] at h
          simp only at h
          rcases hg : groupIntoChunks maxChunk maxSlot
              ((stableSortBy presetLe interp).map
                (fun cmd => { type := TweakType.command, command := cmd, slot := none }) ++
                defsR.commands ++ unitsR.commands ++ custom) with e | chunks
          · rw [hg] at h
            simp only at h
            cases h
          · rw [hg] at h
            simp only [pure, Except.pure, Except.ok.injEq] at h
            subst h
            exact ⟨interp, defsR, unitsR, custom, rfl, rfl, rfl, hc, rfl, rfl, rfl, hg,
              groupIntoChunksLoop_join maxChunk maxSlot _ [] 0 chunks hg⟩

/-- `allocateCustomTweaks` on a non-empty tweak list is the allocation
loop started from the scanned existing commands. -/
theorem allocateCustomTweaks_eq (maxSlot : Nat) (existing : List String)
    (tweaks : List EnabledCustomTweak) (hne : tweaks ≠ []) :
    allocateCustomTweaks maxSlot existing (some tweaks) =
      ⟨(allocLoop maxSlot tweaks (initialUsedSlots existing)).1.map (·.command),
        (allocLoop maxSlot tweaks (initialUsedSlots existing)).2.1,
        (allocLoop maxSlot tweaks (initialUsedSlots existing)).2.2.1,
        (allocLoop maxSlot tweaks (initialUsedSlots existing)).2.2.2,
        (allocLoop maxSlot tweaks (initialUsedSlots existing)).1⟩ := by
  rw [allocateCustomTweaks]
  rw [if_neg (by simpa [List.isEmpty_iff] using hne)]

/-- Every command allocated by the loop fits the per-command ceiling. -/
theorem allocLoop_cmd_le (maxSlot : Nat) (tweaks : List EnabledCustomTweak)
    (used : UsedSlots) :
    ∀ a ∈ (allocLoop maxSlot tweaks used).1, a.command.length ≤ maxSlot := by
  intro a ha
  obtain ⟨pre, post, hl⟩ := List.append_of_mem ha
  exact (allocLoop_minimal maxSlot tweaks used pre post a hl).2.2

/-- Every command returned by `allocateCustomTweaks` fits the ceiling. -/
theorem allocateCustomTweaks_cmd_le (maxSlot : Nat) (existing : List String)
    (ct : Option (List EnabledCustomTweak)) :
    ∀ a ∈ (allocateCustomTweaks maxSlot existing ct).allocations,
      a.command.length ≤ maxSlot := by
  intro a ha
  rcases ct with _ | tweaks
  · cases ha
  · rcases tweaks with _ | ⟨t, rest⟩
    · rw [allocateCustomTweaks, if_pos (by simp)] at ha
      simp at ha
    · rw [allocateCustomTweaks_eq maxSlot existing (t :: rest) (by simp)] at ha
      exact allocLoop_cmd_le maxSlot (t :: rest) (initialUsedSlots existing) a ha

/-- Every slot command built by the structured packer fits the ceiling. -/
theorem buildPackCommands_cmd_le (ty : LuaTweakType) (maxSlot : Nat) :
    ∀ (i : Nat) (groups : List (List LuaSource)) (cmds : List Command),
      buildPackCommands ty maxSlot i groups = .ok cmds →
      ∀ c ∈ cmds, c.command.length ≤ maxSlot := by
  intro i groups
  induction groups generalizing i with
  | nil =>
    intro cmds h c hc
    cases h
    cases hc
  | cons g rest ih =>
    intro cmds h c hc
    rw [buildPackCommands] at h
    split at h
    · cases h
    · next hfit =>
      rcases hrec : buildPackCommands ty maxSlot (i + 1) rest with e | cmds'
      · rw [hrec] at h
        cases h
      · rw [hrec] at h
        cases h
        rcases List.mem_cons.mp hc with rfl | hc
        · simpa using Nat.le_of_not_lt hfit
        · exact ih (i + 1) cmds' hrec c hc

/-- Every command of a successful `packLuaSources` run fits the ceiling. -/
theorem packLuaSources_cmd_le (target maxSlot : Nat) (sources : List LuaSource)
    (ty : LuaTweakType) (res : PackResult)
    (h : packLuaSources target maxSlot sources ty = .ok res) :
    ∀ c ∈ res.commands, c.command.length ≤ maxSlot := by
  intro c hc
  rw [packLuaSources] at h
  split at h
  · cases h
    cases hc
  · dsimp only at h
    split at h
    · cases h
    · rcases hb : buildPackCommands ty maxSlot 0 (packSlots ty target sources)
        with e | cmds
      · rw [hb] at h
        cases h
      · rw [hb] at h
        cases h
        exact buildPackCommands_cmd_le ty maxSlot 0 _ cmds hb c hc

/-- The `!preset`-first test of the plain-command comparator. -/
def isPresetCmd (c : String) : Bool :=
  "!preset".data.isPrefixOf c.data

/-- `presetLe` against a non-preset command always holds. -/
theorem presetLe_of_not_preset {x : String} (hx : isPresetCmd x = false)
    (y : String) : presetLe y x = true := by
  simp only [presetLe, isPresetCmd] at hx ⊢
  rw [hx]
  simp

/-- `presetLe` against a preset command tests the left side. -/
theorem presetLe_of_preset {x : String} (hx : isPresetCmd x = true)
    (y : String) : presetLe y x = isPresetCmd y := by
  simp only [presetLe, isPresetCmd] at hx ⊢
  rw [hx]
  simp

/-- Insertion at the end when the comparator accepts every element. -/
theorem insertBy_append_of_all_true {le : α → α → Bool} {x : α} :
    ∀ l : List α, (∀ y ∈ l, le y x = true) → insertBy le x l = l ++ [x] := by
  intro l
  induction l with
  | nil => intro _; rfl
  | cons y ys ih =>
    intro hall
    rw [insertBy, if_pos (hall y (by simp)), ih (fun z hz => hall z (by simp [hz]))]
    rfl

/-- Insertion between an accepting prefix and a rejecting suffix. -/
theorem insertBy_split {le : α → α → Bool} {x : α} :
    ∀ P N : List α, (∀ y ∈ P, le y x = true) → (∀ y ∈ N, le y x = false) →
      insertBy le x (P ++ N) = P ++ x :: N := by
  intro P
  induction P with
  | nil =>
    intro N _ hN
    rcases N with _ | ⟨n, ns⟩
    · rfl
    · rw [List.nil_append, insertBy, if_neg (by simp [hN n (by simp)])]
      rfl
  | cons p ps ih =>
    intro N hP hN
    rw [List.cons_append, insertBy, if_pos (hP p (by simp)),
      ih N (fun z hz => hP z (by simp [hz])) hN]
    rfl

/-- Invariant of the `stableSortBy presetLe` fold: the accumulator stays a
preset block followed by a non-preset block, each in source order. -/
theorem stableSortBy_presetLe_aux :
    ∀ (l P N : List String),
      (∀ y ∈ P, isPresetCmd y = true) → (∀ y ∈ N, isPresetCmd y = false) →
      l.foldl (fun acc x => insertBy presetLe x acc) (P ++ N) =
        (P ++ l.filter isPresetCmd) ++
          (N ++ l.filter fun c => !isPresetCmd c) := by
  intro l
  induction l with
  | nil =>
    intro P N _ _
    simp
  | cons x xs ih =>
    intro P N hP hN
    rw [List.foldl_cons]
    by_cases hx : isPresetCmd x = true
    · rw [insertBy_split P N
        (fun y hy => by rw [presetLe_of_preset hx]; exact hP y hy)
        (fun y hy => by rw [presetLe_of_preset hx]; exact hN y hy)]
      rw [show P ++ x :: N = (P ++ [x]) ++ N by simp]
      rw [ih (P ++ [x]) N
        (by
          intro y hy
          rcases List.mem_append.mp hy with hy | hy
          · exact hP y hy
          · rcases List.mem_cons.mp hy with rfl | hy
            · exact hx
            · cases hy) hN]
      simp [List.filter_cons, hx]
    · have hxf : isPresetCmd x = false := by simpa using hx
      rw [insertBy_append_of_all_true (P ++ N)
        (fun y _ => presetLe_of_not_preset hxf y)]
      rw [show (P ++ N) ++ [x] = P ++ (N ++ [x]) by simp]
      rw [ih P (N ++ [x]) hP
        (by
          intro y hy
          rcases List.mem_append.mp hy with hy | hy
          · exact hN y hy
          · rcases List.mem_cons.mp hy with rfl | hy
            · exact hxf
            · cases hy)]
      simp [List.filter_cons, hxf]

/-- The stable sort by the `!preset`-first comparator is exactly: preset
commands first, then the others, each block in source order. -/
theorem stableSortBy_presetLe (l : List String) :
    stableSortBy presetLe l =
      l.filter isPresetCmd ++ l.filter fun c => !isPresetCmd c := by
  have := stableSortBy_presetLe_aux l [] [] (by simp) (by simp)
  simpa [stableSortBy] using this

/-- A concrete custom-tweak list for exercising the allocator. -/
def c2Tweaks : List EnabledCustomTweak :=
  [⟨1, "first", .tweakdefs, "aGVsbG8", true⟩,
    ⟨2, "second", .tweakunits, "aGVsbG8", true⟩]

/-- **C2** — In `generateCommands`, each enabled custom tweak, processed in
the order given, is assigned the lowest slot index in 1–9 not already
occupied for its type, occupancy being scanned from the already generated
`!bset` commands (an unsuffixed slot name counts as index 0) plus the
earlier successful allocations only; a tweak whose type has no free index,
or whose `!bset <slotname> <code>` command would exceed the ceiling, is
dropped rather than raising an error, leaving its tentatively reserved slot
to the later tweaks; every input tweak is either allocated or dropped; and
a successful generation records exactly the allocator's drops in
`droppedCustomTweaks` while the non-custom commands of the result are the
interpolated, packed commands, unaffected by the drops. -/
theorem allocateCustomTweaks_drop_semantics
    (maxSlot : Nat) (existing : List String) (tweaks : List EnabledCustomTweak)
    (hne : tweaks ≠ []) :
    (∀ pre a post,
      (allocateCustomTweaks maxSlot existing (some tweaks)).allocations =
          pre ++ a :: post →
      1 ≤ a.slotIndex ∧ a.slotIndex ≤ 9 ∧
      a.slotIndex ∉ (usedAfter (initialUsedSlots existing) pre).get a.tweak.type ∧
      (∀ j, 1 ≤ j → j < a.slotIndex →
        j ∈ (usedAfter (initialUsedSlots existing) pre).get a.tweak.type) ∧
      a.command =
        "!bset " ++ formatSlotName a.tweak.type a.slotIndex ++ " " ++ a.tweak.code ∧
      a.command.length ≤ maxSlot) ∧
    (∀ (t : EnabledCustomTweak) (rest : List EnabledCustomTweak) (used : UsedSlots),
      (findFreeSlot (used.get t.type) = none ∨
        ∃ slot, findFreeSlot (used.get t.type) = some slot ∧
          maxSlot < ("!bset " ++ formatSlotName t.type slot ++ " " ++ t.code).length) →
      allocLoop maxSlot (t :: rest) used =
        ((allocLoop maxSlot rest used).1,
          t :: (allocLoop maxSlot rest used).2.1,
          (allocLoop maxSlot rest used).2.2.1,
          (allocLoop maxSlot rest used).2.2.2)) ∧
    (((allocateCustomTweaks maxSlot existing (some tweaks)).allocations.map
        (·.tweak)).Sublist tweaks ∧
      (allocateCustomTweaks maxSlot existing (some tweaks)).dropped.Sublist tweaks ∧
      (allocateCustomTweaks maxSlot existing (some tweaks)).allocations.length +
        (allocateCustomTweaks maxSlot existing (some tweaks)).dropped.length =
          tweaks.length) ∧
    (∀ (prios : List (String × Nat)) (defaultPrio target maxChunk : Nat)
      (mapped : MappedData) (ctx : TemplateContext)
      (luaFiles : List (String × String))
      (customTweaks : Option (List EnabledCustomTweak)) (r : PackingResult),
      generateCommands prios defaultPrio target maxChunk maxSlot mapped ctx
          luaFiles customTweaks = .ok r →
      ∃ interp defsR unitsR custom,
        interpolateCommands mapped.commands ctx = .ok interp ∧
        packLuaSources target maxSlot
          (sortLua (resolveLuaSources prios defaultPrio luaFiles mapped.tweakdefs))
          .tweakdefs = .ok defsR ∧
        packLuaSources target maxSlot
          (sortLua (resolveLuaSources prios defaultPrio luaFiles mapped.tweakunits))
          .tweakunits = .ok unitsR ∧
        r.droppedCustomTweaks =
          (allocateCustomTweaks maxSlot
            (defsR.commands.map (·.command) ++ unitsR.commands.map (·.command))
            (customTweaks.map (·.filter (·.enabled)))).dropped ∧
        r.chunks.join =
          (stableSortBy presetLe interp).map
            (fun cmd => { type := TweakType.command, command := cmd, slot := none }) ++
            defsR.commands ++ unitsR.commands ++ custom) := by
  refine ⟨?_, ?_, ?_, ?_⟩
  · intro pre a post hdecomp
    rw [allocateCustomTweaks_eq maxSlot existing tweaks hne] at hdecomp
    obtain ⟨hfs, hcmd, hlen⟩ :=
      allocLoop_minimal maxSlot tweaks (initialUsedSlots existing) pre post a hdecomp
    obtain ⟨h1, h9, hnin, hlow⟩ := (findFreeSlot_spec _).1 a.slotIndex hfs
    exact ⟨h1, h9, hnin, hlow, hcmd, hlen⟩
  · intro t rest used hblock
    rw [allocLoop]
    rcases hblock with hnone | ⟨slot, hs, hlen⟩
    · rw [hnone]
    · rw [hs]
      dsimp only
      rw [if_pos hlen]
  · have hpart := allocLoop_partition maxSlot tweaks (initialUsedSlots existing)
    rw [allocateCustomTweaks_eq maxSlot existing tweaks hne]
    exact hpart
  · intro prios defaultPrio target maxChunk mapped ctx luaFiles customTweaks r h
    obtain ⟨interp, defsR, unitsR, custom, hi, hd, hu, _, hdrop, _, _, _, hjoin⟩ :=
      generateCommands_ok prios defaultPrio target maxChunk maxSlot mapped ctx
        luaFiles customTweaks r h
    exact ⟨interp, defsR, unitsR, custom, hi, hd, hu, hdrop, hjoin⟩

/-- The allocator's partition property at a concrete input. -/
theorem allocateCustomTweaks_drop_semantics_witness :
    ((allocateCustomTweaks 100 [] (some c2Tweaks)).allocations.map
        (·.tweak)).Sublist c2Tweaks ∧
    (allocateCustomTweaks 100 [] (some c2Tweaks)).dropped.Sublist c2Tweaks ∧
    (allocateCustomTweaks 100 [] (some c2Tweaks)).allocations.length +
      (allocateCustomTweaks 100 [] (some c2Tweaks)).dropped.length =
        c2Tweaks.length :=
  (allocateCustomTweaks_drop_semantics 100 [] c2Tweaks (by decide)).2.2.1

/-- A concrete mapper result for exercising the command ordering. -/
def c5Mapped : MappedData :=
  ⟨["!balance", "!preset coop"], [], []⟩

/-- **C5** — A successful `generateCommands` run emits one ordered command
list: the interpolated plain commands first, with every command beginning
`!preset` stably sorted ahead of all other plain commands and source order
otherwise preserved (the stable sort equals the preset block followed by
the non-preset block, each in source order); then all tweakdefs slot
commands; then all tweakunits slot commands; then the allocated
custom-tweak commands, each carrying slot content prefixed
`-- Custom Tweak: <description>` and the single source tag
`custom:<description>`. -/
theorem generateCommands_output_order
    (prios : List (String × Nat)) (defaultPrio target maxChunk maxSlot : Nat)
    (mapped : MappedData) (ctx : TemplateContext)
    (luaFiles : List (String × String))
    (customTweaks : Option (List EnabledCustomTweak)) (r : PackingResult)
    (h : generateCommands prios defaultPrio target maxChunk maxSlot mapped ctx
      luaFiles customTweaks = .ok r) :
    ∃ interp defsR unitsR custom,
      interpolateCommands mapped.commands ctx = .ok interp ∧
      packLuaSources target maxSlot
        (sortLua (resolveLuaSources prios defaultPrio luaFiles mapped.tweakdefs))
        .tweakdefs = .ok defsR ∧
      packLuaSources target maxSlot
        (sortLua (resolveLuaSources prios defaultPrio luaFiles mapped.tweakunits))
        .tweakunits = .ok unitsR ∧
      r.chunks.join =
        (interp.filter isPresetCmd ++ interp.filter fun c => !isPresetCmd c).map
          (fun cmd => { type := TweakType.command, command := cmd, slot := none }) ++
          defsR.commands ++ unitsR.commands ++ custom ∧
      List.Forall₂
        (fun (a : CustomTweakAllocation) (c : Command) =>
          ∃ decoded, decodeB64Url a.tweak.code = some decoded ∧
            c = { type := a.tweak.type.toTweakType
                  command := a.command
                  slot := some
                    { index := a.slotIndex
                      sources := ["custom:" ++ a.tweak.description]
                      content := "-- Custom Tweak: " ++ a.tweak.description ++
                        "\n" ++ decoded } })
        (allocateCustomTweaks maxSlot
          (defsR.commands.map (·.command) ++ unitsR.commands.map (·.command))
          (customTweaks.map (·.filter (·.enabled)))).allocations custom := by
  obtain ⟨interp, defsR, unitsR, custom, hi, hd, hu, hc, _, _, _, _, hjoin⟩ :=
    generateCommands_ok prios defaultPrio target maxChunk maxSlot mapped ctx
      luaFiles customTweaks r h
  refine ⟨interp, defsR, unitsR, custom, hi, hd, hu, ?_, ?_⟩
  · rw [hjoin, stableSortBy_presetLe]
  · have hf := buildCustomCommands_forall₂ _ custom hc
    refine List.Forall₂.imp ?_ hf
    intro a c hac
    rw [buildCustomCommand] at hac
    split at hac
    · cases hac
    · next decoded hdec =>
      cases hac
      exact ⟨decoded, hdec, rfl⟩

/-- The ordering theorem at a concrete input: the `!preset` command is
sorted ahead of the earlier plain command. -/
theorem generateCommands_output_order_witness :
    ∃ interp defsR unitsR custom,
      interpolateCommands c5Mapped.commands [] = .ok interp ∧
      packLuaSources 10000 51000
        (sortLua (resolveLuaSources [] 0 [] c5Mapped.tweakdefs))
        .tweakdefs = .ok defsR ∧
      packLuaSources 10000 51000
        (sortLua (resolveLuaSources [] 0 [] c5Mapped.tweakunits))
        .tweakunits = .ok unitsR ∧
      (PackingResult.mk
          [[⟨TweakType.command, "!preset coop", none⟩,
            ⟨TweakType.command, "!balance", none⟩]] 0 0 []).chunks.join =
        (interp.filter isPresetCmd ++ interp.filter fun c => !isPresetCmd c).map
          (fun cmd => { type := TweakType.command, command := cmd, slot := none }) ++
          defsR.commands ++ unitsR.commands ++ custom ∧
      List.Forall₂
        (fun (a : CustomTweakAllocation) (c : Command) =>
          ∃ decoded, decodeB64Url a.tweak.code = some decoded ∧
            c = { type := a.tweak.type.toTweakType
                  command := a.command
                  slot := some
                    { index := a.slotIndex
                      sources := ["custom:" ++ a.tweak.description]
                      content := "-- Custom Tweak: " ++ a.tweak.description ++
                        "\n" ++ decoded } })
        (allocateCustomTweaks 51000
          (defsR.commands.map (·.command) ++ unitsR.commands.map (·.command))
          ((none : Option (List EnabledCustomTweak)).map
            (·.filter (·.enabled)))).allocations custom :=
  generateCommands_output_order [] 0 10000 100000 51000 c5Mapped [] [] none
    (PackingResult.mk
      [[⟨TweakType.command, "!preset coop", none⟩,
        ⟨TweakType.command, "!balance", none⟩]] 0 0 []) rfl

/-- **C7** — Coverage of the chunker's internal-invariant error: the size
checks of the packer and of the custom-tweak allocator bound every slot
command and every custom command by the per-command ceiling, so those
commands can never trigger the `Command exceeds maximum length` branch of
`groupIntoChunks`; and whenever the interpolated plain commands also
respect the ceiling, chunking succeeds outright. The plain commands are
not covered by any earlier check (see the companion counterexample), so
the earlier checks alone do not make the error branch unreachable. -/
theorem chunker_error_coverage
    (prios : List (String × Nat)) (defaultPrio target maxChunk maxSlot : Nat)
    (mapped : MappedData) (ctx : TemplateContext)
    (luaFiles : List (String × String))
    (customTweaks : Option (List EnabledCustomTweak))
    (interp : List String) (defsR unitsR : PackResult) (custom : List Command)
    (hi : interpolateCommands mapped.commands ctx = .ok interp)
    (hd : packLuaSources target maxSlot
      (sortLua (resolveLuaSources prios defaultPrio luaFiles mapped.tweakdefs))
      .tweakdefs = .ok defsR)
    (hu : packLuaSources target maxSlot
      (sortLua (resolveLuaSources prios defaultPrio luaFiles mapped.tweakunits))
      .tweakunits = .ok unitsR)
    (hc : buildCustomCommands
      (allocateCustomTweaks maxSlot
        (defsR.commands.map (·.command) ++ unitsR.commands.map (·.command))
        (customTweaks.map (·.filter (·.enabled)))).allocations = .ok custom) :
    (∀ c ∈ defsR.commands ++ unitsR.commands ++ custom,
      c.command.length ≤ maxSlot) ∧
    ((∀ c ∈ interp, c.length ≤ maxSlot) →
      ∃ chunks,
        groupIntoChunks maxChunk maxSlot
          ((stableSortBy presetLe interp).map
            (fun cmd => { type := TweakType.command, command := cmd, slot := none }) ++
            defsR.commands ++ unitsR.commands ++ custom) = .ok chunks) := by
  have hslot : ∀ c ∈ defsR.commands ++ unitsR.commands ++ custom,
      c.command.length ≤ maxSlot := by
    intro c hcm
    rcases List.mem_append.mp hcm with hcm | hcm
    · rcases List.mem_append.mp hcm with hcm | hcm
      · exact packLuaSources_cmd_le target maxSlot _ _ defsR hd c hcm
      · exact packLuaSources_cmd_le target maxSlot _ _ unitsR hu c hcm
    · obtain ⟨a, ha, hcmd⟩ := buildCustomCommands_cmds _ custom hc c hcm
      rw [hcmd]
      exact allocateCustomTweaks_cmd_le maxSlot _ _ a ha
  refine ⟨hslot, ?_⟩
  intro hplain
  rw [groupIntoChunks]
  refine (groupIntoChunksLoop_ok_iff maxChunk maxSlot _ [] 0).mpr ?_
  intro c hcm
  rcases List.mem_append.mp hcm with hcm | hcm
  · rcases List.mem_append.mp hcm with hcm | hcm
    · rcases List.mem_append.mp hcm with hcm | hcm
      · obtain ⟨cmd, hcmd, rfl⟩ := List.mem_map.mp hcm
        exact hplain cmd (stableSortBy_mem interp hcmd)
      · exact hslot c (List.mem_append.mpr (Or.inl (List.mem_append.mpr (Or.inl hcm))))
    · exact hslot c (List.mem_append.mpr (Or.inl (List.mem_append.mpr (Or.inr hcm))))
  · exact hslot c (List.mem_append.mpr (Or.inr hcm))

/-- The coverage theorem at a concrete input. -/
theorem chunker_error_coverage_witness :
    (∀ c ∈ (PackResult.mk [] 0 10).commands ++ (PackResult.mk [] 0 10).commands ++
        ([] : List Command), c.command.length ≤ 5) ∧
    ((∀ c ∈ ["!a"], c.length ≤ 5) →
      ∃ chunks,
        groupIntoChunks 100 5
          ((stableSortBy presetLe ["!a"]).map
            (fun cmd => { type := TweakType.command, command := cmd, slot := none }) ++
            (PackResult.mk [] 0 10).commands ++ (PackResult.mk [] 0 10).commands ++
            ([] : List Command)) = .ok chunks) :=
  chunker_error_coverage [] 0 10000 100 5 ⟨["!a"], [], []⟩ [] [] none
    ["!a"] (PackResult.mk [] 0 10) (PackResult.mk [] 0 10) [] rfl rfl rfl rfl

/-- The chunker's error branch is reachable even though interpolation,
packing and custom-tweak allocation all succeed: a plain command longer
than the per-command ceiling is never length-checked before chunking. -/
theorem chunker_error_reachable :
    interpolateCommands (MappedData.mk ["!abcdefghi"] [] []).commands [] =
      .ok ["!abcdefghi"] ∧
    packLuaSources 10000 5
      (sortLua (resolveLuaSources [] 0 []
        (MappedData.mk ["!abcdefghi"] [] []).tweakdefs)) .tweakdefs =
      .ok (PackResult.mk [] 0 10) ∧
    packLuaSources 10000 5
      (sortLua (resolveLuaSources [] 0 []
        (MappedData.mk ["!abcdefghi"] [] []).tweakunits)) .tweakunits =
      .ok (PackResult.mk [] 0 10) ∧
    allocateCustomTweaks 5 []
      ((none : Option (List EnabledCustomTweak)).map (·.filter (·.enabled))) =
      ⟨[], [], 0, 0, []⟩ ∧
    generateCommands [] 0 10000 100 5 (MappedData.mk ["!abcdefghi"] [] []) [] [] none =
      .error ("Command exceeds maximum length: 10 > 5. " ++
        "This indicates a bug in command generation.") :=
  ⟨rfl, rfl, rfl, rfl, rfl⟩

end NuttyB
